import Mathlib

set_option maxHeartbeats 1000000

/-!
A verification development for the fft_sound_convolution crate: a streaming
overlap-add convolution engine built from a fixed-capacity ring buffer
(src/dtype.rs) and a mono block convolution engine (src/lib.rs).

Modelling conventions.
* f64 samples are modelled as exact rationals; the floating tolerance of the
  informal statements becomes exact equality.
* usize arithmetic: the two subtractions in the source that can underflow
  (panicking in debug builds, producing an absurd allocation in release
  builds) are modelled by explicit guards returning none.
* The rustfft calls are external library code.  The engine only ever uses
  the composite map: forward transform of the zero-padded block, pointwise
  multiplication with the cached forward transform of the zero-padded
  impulse response, inverse transform, real part divided by the transform
  size.  With exact arithmetic that composite is precisely the cyclic
  convolution of the two padded sequences (rustfft computes the unnormalised
  DFT, so the inverse requires the division by n that the source performs),
  and it is modelled by cyclicConv below.  Accordingly the ir_fft_cache
  field holds the zero-padded time-domain impulse response, the data the
  cached spectrum is the transform of.
* The Rust RingBuffer keeps a redundant length field that under the utility
  API always equals the length of the inner deque (only inner_mut could
  desynchronise it, and the engine only uses inner_mut to mutate elements in
  place); the model therefore derives the length from the inner list.
-/

/-- Fixed-capacity ring buffer of src/dtype.rs: an ordered inner sequence plus
a declared capacity. -/
structure RingBuffer (α : Type) where
  inner : List α
  capacity : ℕ
  deriving DecidableEq, Repr

/-- Models RingBuffer::new(capacity): empty contents. -/
def RingBuffer.new (α : Type) (c : ℕ) : RingBuffer α := ⟨[], c⟩

/-- Models RingBuffer::len (the redundant length field always equals the inner
length, see the module comment). -/
def RingBuffer.len {α : Type} (s : RingBuffer α) : ℕ := s.inner.length

/-- Models RingBuffer::from_deque: capacity and length are the deque length. -/
def RingBuffer.from_deque {α : Type} (l : List α) : RingBuffer α := ⟨l, l.length⟩

/-- Models RingBuffer::clear. -/
def RingBuffer.clear {α : Type} (s : RingBuffer α) : RingBuffer α :=
  { s with inner := [] }

/-- Models RingBuffer::pop_front: returns None untouched when capacity is 0,
otherwise removes and returns the front element if any. -/
def RingBuffer.pop_front {α : Type} (s : RingBuffer α) : Option α × RingBuffer α :=
  if s.capacity = 0 then (none, s)
  else
    match s.inner with
    | [] => (none, s)
    | a :: rest => (some a, { s with inner := rest })

/-- Models RingBuffer::pop_back: returns None untouched when capacity is 0,
otherwise removes and returns the back element if any. -/
def RingBuffer.pop_back {α : Type} (s : RingBuffer α) : Option α × RingBuffer α :=
  if s.capacity = 0 then (none, s)
  else
    match s.inner.getLast? with
    | none => (none, s)
    | some a => (some a, { s with inner := s.inner.dropLast })

/-- Step-faithful model of the while loop of to_capacity_front
(while length > capacity pop_front), counting one fuel unit per iteration.
When capacity is 0 and the buffer is nonempty, pop_front is a no-op, the
source loop never exits, and this model yields none for every fuel. -/
def RingBuffer.loopFrontFuel {α : Type} : ℕ → RingBuffer α → Option (RingBuffer α)
  | 0, s => if s.capacity < s.inner.length then none else some s
  | fuel + 1, s =>
    if s.capacity < s.inner.length then RingBuffer.loopFrontFuel fuel (s.pop_front).2
    else some s

/-- Step-faithful model of the while loop of to_capacity_back. -/
def RingBuffer.loopBackFuel {α : Type} : ℕ → RingBuffer α → Option (RingBuffer α)
  | 0, s => if s.capacity < s.inner.length then none else some s
  | fuel + 1, s =>
    if s.capacity < s.inner.length then RingBuffer.loopBackFuel fuel (s.pop_back).2
    else some s

/-- Models RingBuffer::to_capacity_front with explicit fuel (none = the source
loop has not exited within fuel iterations). -/
def RingBuffer.toCapacityFrontFuel {α : Type} (fuel : ℕ) (s : RingBuffer α)
    (c : Option ℕ) : Option (RingBuffer α) :=
  RingBuffer.loopFrontFuel fuel { s with capacity := c.getD s.capacity }

/-- Models RingBuffer::to_capacity_back with explicit fuel. -/
def RingBuffer.toCapacityBackFuel {α : Type} (fuel : ℕ) (s : RingBuffer α)
    (c : Option ℕ) : Option (RingBuffer α) :=
  RingBuffer.loopBackFuel fuel { s with capacity := c.getD s.capacity }

/-- Total version of the front eviction loop, used to model the call sites
inside push_back where the source loop always terminates (capacity nonzero,
so each iteration removes one element; fuel = inner length suffices).  It
agrees with loopFrontFuel wherever that loop terminates; the extra
capacity-not-zero test only cuts the states on which the source diverges. -/
def RingBuffer.evictFrontN {α : Type} : ℕ → RingBuffer α → RingBuffer α
  | 0, s => s
  | fuel + 1, s =>
    if s.capacity < s.inner.length ∧ s.capacity ≠ 0 then
      RingBuffer.evictFrontN fuel (s.pop_front).2
    else s

/-- Total version of the back eviction loop; see evictFrontN. -/
def RingBuffer.evictBackN {α : Type} : ℕ → RingBuffer α → RingBuffer α
  | 0, s => s
  | fuel + 1, s =>
    if s.capacity < s.inner.length ∧ s.capacity ≠ 0 then
      RingBuffer.evictBackN fuel (s.pop_back).2
    else s

/-- Total model of to_capacity_front (used by push_back, where it terminates). -/
def RingBuffer.to_capacity_front {α : Type} (s : RingBuffer α) (c : Option ℕ) :
    RingBuffer α :=
  RingBuffer.evictFrontN (s.inner.length) { s with capacity := c.getD s.capacity }

/-- Total model of to_capacity_back (used by push_front, where it terminates). -/
def RingBuffer.to_capacity_back {α : Type} (s : RingBuffer α) (c : Option ℕ) :
    RingBuffer α :=
  RingBuffer.evictBackN (s.inner.length) { s with capacity := c.getD s.capacity }

/-- Models RingBuffer::push_back: no-op at capacity 0; otherwise run
to_capacity_front(None), evict the front element when already at capacity,
then append at the back. -/
def RingBuffer.push_back {α : Type} (s : RingBuffer α) (a : α) : RingBuffer α :=
  if s.capacity = 0 then s
  else
    let s1 := s.to_capacity_front none
    let s2 := if s1.inner.length = s1.capacity then (s1.pop_front).2 else s1
    { s2 with inner := s2.inner ++ [a] }

/-- Models RingBuffer::push_front: no-op at capacity 0; otherwise run
to_capacity_back(None), evict the back element when already at capacity,
then insert at the front. -/
def RingBuffer.push_front {α : Type} (s : RingBuffer α) (a : α) : RingBuffer α :=
  if s.capacity = 0 then s
  else
    let s1 := s.to_capacity_back none
    let s2 := if s1.inner.length = s1.capacity then (s1.pop_back).2 else s1
    { s2 with inner := a :: s2.inner }

/-- Iterated push_back of the same value (the loop body of the source
re-initialisation method). -/
def RingBuffer.pushN {α : Type} (s : RingBuffer α) (a : α) : ℕ → RingBuffer α
  | 0 => s
  | k + 1 => (RingBuffer.pushN s a k).push_back a

/-- Models the initialize_again method of the source (renamed here): push
capacity clones of the value onto the back. -/
def RingBuffer.reinit {α : Type} (s : RingBuffer α) (a : α) : RingBuffer α :=
  s.pushN a s.capacity

/-- Models the initialize method of the source (renamed here): reinit on a
by-value receiver, returning it. -/
def RingBuffer.initFull {α : Type} (s : RingBuffer α) (a : α) : RingBuffer α :=
  s.reinit a

/-- Models ChunkedBuffer::buffer_back for RingBuffer: push at the back; if the
length then equals the capacity, hand back a clone of the contents and clear. -/
def RingBuffer.buffer_back {α : Type} (s : RingBuffer α) (a : α) :
    Option (List α) × RingBuffer α :=
  let s1 := s.push_back a
  if s1.inner.length = s1.capacity then (some s1.inner, s1.clear) else (none, s1)

/-- Models ChunkedBuffer::buffer_front for RingBuffer. -/
def RingBuffer.buffer_front {α : Type} (s : RingBuffer α) (a : α) :
    Option (List α) × RingBuffer α :=
  let s1 := s.push_front a
  if s1.inner.length = s1.capacity then (some s1.inner, s1.clear) else (none, s1)

/-- Fuel-indexed doubling loop of next_power_of_two; fuel n is always enough
because the power doubles each step. -/
def nextPow2Go : ℕ → ℕ → ℕ → ℕ
  | 0, _, power => power
  | fuel + 1, n, power => if power < n then nextPow2Go fuel n (power * 2) else power

/-- Models usize::next_power_of_two: the smallest power of two that is at least
n (1 for n = 0). -/
def nextPow2 (n : ℕ) : ℕ := nextPow2Go n n 1

/-- Cyclic convolution of two length-n sequences.  This is the exact
mathematical value of the composite rustfft pipeline the engine runs on a
completed block: forward transform, pointwise multiplication with the cached
forward transform of the padded impulse response, inverse transform, real
part divided by n (see the module comment). -/
def cyclicConv (n : ℕ) (a b : List ℚ) : List ℚ :=
  (List.range n).map fun i => ∑ j ∈ Finset.range n, a.getD j 0 * b.getD ((i + n - j) % n) 0

/-- Pointwise accumulation of the block result into the output buffer: models
iterating the output contents mutably, zipped with the block result, adding
each value in place (positions beyond either list are untouched). -/
def addInto : List ℚ → List ℚ → List ℚ
  | xs, [] => xs
  | [], _ :: _ => []
  | x :: xs, b :: bs => (x + b) :: addInto xs bs

/-- The mono engine of src/lib.rs.  ir_fft_cache holds the zero-padded
time-domain impulse response whose spectrum the source caches (see the
module comment); the shared transform planner is pure plumbing and is not
modelled. -/
structure FFTConvolution where
  x : RingBuffer ℚ
  out : RingBuffer ℚ
  window_size : ℕ
  ir : List ℚ
  ir_fft_cache : List ℚ
  deriving DecidableEq, Repr

/-- Models FFTConvolution::padded_window_size on inputs where the usize
subtraction does not underflow: next_power_of_two(ir_size + window_size - 1). -/
def FFTConvolution.padded_window_size (irSize w : ℕ) : ℕ :=
  nextPow2 (irSize + w - 1)

/-- Checked variant recording the usize underflow: the source computes
ir.len() + window_size - 1 in usize arithmetic, which underflows (panics)
exactly when both are zero. -/
def FFTConvolution.padded_window_size_checked (irSize w : ℕ) : Option ℕ :=
  if irSize + w = 0 then none else some (FFTConvolution.padded_window_size irSize w)

/-- Models FFTConvolution::new.  none captures the two construction panics:
the underflow in padded_window_size when ir and window_size are both empty,
and the underflow in take(padded_window_size - ir.len()) when the padded
size is smaller than the impulse response length. -/
def FFTConvolution.new? (ir : List ℚ) (w : ℕ) : Option FFTConvolution :=
  if ir.length + w = 0 then none
  else
    if ir.length ≤ FFTConvolution.padded_window_size ir.length w then
      some
        { x := RingBuffer.new ℚ w
          out := (RingBuffer.new ℚ (FFTConvolution.padded_window_size ir.length w)).initFull 0
          window_size := w
          ir := ir
          ir_fft_cache :=
            ir ++ List.replicate (FFTConvolution.padded_window_size ir.length w - ir.length) 0 }
    else none

/-- Models FFTConvolution::window_size. -/
def FFTConvolution.windowSize (s : FFTConvolution) : ℕ := s.window_size

/-- Models FFTConvolution::internal_buffer_size: the length of the output
accumulator. -/
def FFTConvolution.internal_buffer_size (s : FFTConvolution) : ℕ :=
  s.out.inner.length

/-- Models Filter::clear for FFTConvolution: clear the input accumulator and
re-fill the output accumulator with zeros. -/
def FFTConvolution.clear (s : FFTConvolution) : FFTConvolution :=
  { s with x := s.x.clear, out := s.out.reinit 0 }

/-- Models Filter::compute for FFTConvolution.  none captures the panics: the
unwrap of pop_front on an empty output accumulator, the underflow in
take(padded_window_size - window_size) when the block is longer than the
recomputed padded size, and (outside the states the engine can reach) a
mismatch between the recomputed padded size and the cached spectrum length,
where the source would index the cache out of bounds or combine spectra of
different sizes. -/
def FFTConvolution.compute (s : FFTConvolution) (signal : ℚ) :
    Option (ℚ × FFTConvolution) :=
  match s.out.pop_front with
  | (none, _) => none
  | (some buffered, out1) =>
    let out2 := out1.push_back 0
    match s.x.buffer_back signal with
    | (none, x1) => some (buffered, { s with x := x1, out := out2 })
    | (some chunk, x1) =>
      if s.ir.length + chunk.length = 0 then none
      else
        if chunk.length ≤ FFTConvolution.padded_window_size s.ir.length chunk.length ∧
            FFTConvolution.padded_window_size s.ir.length chunk.length = s.ir_fft_cache.length then
          some (buffered,
            { s with
              x := x1
              out :=
                { out2 with
                  inner :=
                    addInto out2.inner
                      (cyclicConv (FFTConvolution.padded_window_size s.ir.length chunk.length)
                        (chunk ++
                          List.replicate
                            (FFTConvolution.padded_window_size s.ir.length chunk.length -
                              chunk.length) 0)
                        s.ir_fft_cache) } })
        else none

/-- State after t compute calls starting from s, feeding sample f n at call n. -/
def FFTConvolution.stepsFrom (f : ℕ → ℚ) (s : FFTConvolution) : ℕ → Option FFTConvolution
  | 0 => some s
  | t + 1 => (FFTConvolution.stepsFrom f s t).bind fun u => (u.compute (f t)).map Prod.snd

/-- State after t compute calls on a freshly constructed engine. -/
def runState (ir : List ℚ) (w : ℕ) (f : ℕ → ℚ) (t : ℕ) : Option FFTConvolution :=
  (FFTConvolution.new? ir w).bind fun s => FFTConvolution.stepsFrom f s t

/-- The sample returned by compute call t on a freshly constructed engine. -/
def outputAt (ir : List ℚ) (w : ℕ) (f : ℕ → ℚ) (t : ℕ) : Option ℚ :=
  (runState ir w f t).bind fun s => (s.compute (f t)).map Prod.fst

/-- The sample returned by compute call t starting from an arbitrary state. -/
def outputFromAt (s : FFTConvolution) (f : ℕ → ℚ) (t : ℕ) : Option ℚ :=
  (FFTConvolution.stepsFrom f s t).bind fun u => (u.compute (f t)).map Prod.fst

/-- An engine operation: one compute call or one clear call. -/
inductive FCOp where
  | comp (q : ℚ)
  | reset
  deriving DecidableEq, Repr

/-- Apply one operation (clear never fails in the source). -/
def applyOp (s : FFTConvolution) : FCOp → Option FFTConvolution
  | FCOp.comp q => (s.compute q).map Prod.snd
  | FCOp.reset => some s.clear

/-- Apply a sequence of compute and clear operations. -/
def applyOps : FFTConvolution → List FCOp → Option FFTConvolution
  | s, [] => some s
  | s, op :: ops => (applyOp s op).bind fun u => applyOps u ops

/-- Impulse response tap lookup with integer index: taps outside [0, length)
are zero. -/
def irZ (ir : List ℚ) (z : ℤ) : ℚ :=
  if 0 ≤ z then ir.getD z.toNat 0 else 0

/-- Direct textbook linear convolution of the stream f with the taps ir,
evaluated at output index m. -/
def convAt (f : ℕ → ℚ) (ir : List ℚ) (m : ℕ) : ℚ :=
  ∑ j ∈ Finset.range (m + 1), f j * irZ ir ((m : ℤ) - j)

/-- Linear convolution of the k-th input block (samples k*w .. k*w+w-1) with
the taps, evaluated at relative integer offset d. -/
def blockConv (f : ℕ → ℚ) (ir : List ℚ) (w k : ℕ) (d : ℤ) : ℚ :=
  ∑ j ∈ Finset.range w, f (k * w + j) * irZ ir (d - j)

/-- Accumulated overlap-add contribution of the first b completed blocks to
the sample returned at call u (block k completes during call k*w + w - 1 and
its block convolution lands on the returns of the following calls). -/
def accS (f : ℕ → ℚ) (ir : List ℚ) (w b u : ℕ) : ℚ :=
  ∑ k ∈ Finset.range b, blockConv f ir w k ((u : ℤ) - k * w - w)

/-- Full functional invariant of the engine after t compute calls on input f:
the input accumulator holds the tail of the current block, and slot i of the
output accumulator holds the accumulated contribution of all completed
blocks to the sample that will be returned at call t + i. -/
def EngineInv (ir : List ℚ) (w : ℕ) (f : ℕ → ℚ) (t : ℕ) (s : FFTConvolution) : Prop :=
  s.ir = ir ∧ s.window_size = w ∧ s.x.capacity = w ∧
  s.x.inner = (List.range (t % w)).map (fun j => f (t / w * w + j)) ∧
  s.out.capacity = FFTConvolution.padded_window_size ir.length w ∧
  s.out.inner.length = FFTConvolution.padded_window_size ir.length w ∧
  s.ir_fft_cache =
    ir ++ List.replicate (FFTConvolution.padded_window_size ir.length w - ir.length) 0 ∧
  ∀ i < FFTConvolution.padded_window_size ir.length w,
    s.out.inner.getD i 0 = accS f ir w (t / w) (t + i)

/-- Structural well-formedness of an engine state, preserved by compute and
clear from construction onwards. -/
def GoodState (s : FFTConvolution) : Prop :=
  s.x.capacity = s.window_size ∧ s.x.inner.length ≤ s.window_size ∧
  s.out.capacity = FFTConvolution.padded_window_size s.ir.length s.window_size ∧
  s.out.inner.length = FFTConvolution.padded_window_size s.ir.length s.window_size ∧
  s.ir_fft_cache.length = FFTConvolution.padded_window_size s.ir.length s.window_size ∧
  s.ir.length ≤ FFTConvolution.padded_window_size s.ir.length s.window_size ∧
  0 < s.ir.length + s.window_size

/-- State of a chunking accumulator of capacity c after n buffer_back calls
feeding f. -/
def bbRun (c : ℕ) (f : ℕ → ℚ) : ℕ → RingBuffer ℚ
  | 0 => RingBuffer.new ℚ c
  | n + 1 => ((bbRun c f n).buffer_back (f n)).2

/-- Block emitted (if any) by buffer_back call n. -/
def bbOut (c : ℕ) (f : ℕ → ℚ) (n : ℕ) : Option (List ℚ) :=
  ((bbRun c f n).buffer_back (f n)).1

/-- State of a chunking accumulator of capacity c after n buffer_front calls. -/
def bfRun (c : ℕ) (f : ℕ → ℚ) : ℕ → RingBuffer ℚ
  | 0 => RingBuffer.new ℚ c
  | n + 1 => ((bfRun c f n).buffer_front (f n)).2

/-- Block emitted (if any) by buffer_front call n. -/
def bfOut (c : ℕ) (f : ℕ → ℚ) (n : ℕ) : Option (List ℚ) :=
  ((bfRun c f n).buffer_front (f n)).1

/-- Apply a sequence of pushes (true = push_back, false = push_front). -/
def pushSeq (s : RingBuffer ℚ) : List (Bool × ℚ) → RingBuffer ℚ
  | [] => s
  | p :: ps => pushSeq (if p.1 then s.push_back p.2 else s.push_front p.2) ps

/-! Basic list lemmas used throughout. -/

theorem getD_zero_of_ge (l : List ℚ) (i : ℕ) (h : l.length ≤ i) : l.getD i 0 = 0 := by
  simp [List.getD_eq_default, List.getElem?_eq_none h]

theorem getD_append_lt {α : Type} (l m : List α) (i : ℕ) (d : α) (h : i < l.length) :
    (l ++ m).getD i d = l.getD i d := by
  induction l generalizing i with
  | nil => simp at h
  | cons a t ih =>
    cases i with
    | zero => rfl
    | succ j =>
      simp only [List.cons_append, List.getD_cons_succ]
      exact ih j (by simpa using h)

theorem getD_pad (l : List ℚ) (m j : ℕ) :
    (l ++ List.replicate m 0).getD j 0 = l.getD j 0 := by
  by_cases h : j < l.length
  · exact getD_append_lt l _ j 0 h
  · push_neg at h
    rw [getD_zero_of_ge l j h]
    by_cases h2 : j < l.length + m
    · have h3 : j - l.length < m := by omega
      rw [List.getD_eq_getElem _ _ (by simpa using h2)]
      rw [List.getElem_append_right (by omega)]
      simp [List.getElem_replicate]
    · exact getD_zero_of_ge _ j (by simp; omega)

theorem getD_map_range (g : ℕ → ℚ) (n i : ℕ) (h : i < n) :
    ((List.range n).map g).getD i 0 = g i := by
  rw [List.getD_eq_getElem _ _ (by simpa using h)]
  simp

/-! RingBuffer eviction and push characterisations. -/

theorem evictFrontN_of_le {α : Type} (fuel : ℕ) (s : RingBuffer α)
    (h : s.inner.length ≤ s.capacity) : RingBuffer.evictFrontN fuel s = s := by
  have h2 : ¬ (s.capacity < s.inner.length) := Nat.not_lt.mpr h
  cases fuel <;> simp [RingBuffer.evictFrontN, h2]

theorem evictBackN_of_le {α : Type} (fuel : ℕ) (s : RingBuffer α)
    (h : s.inner.length ≤ s.capacity) : RingBuffer.evictBackN fuel s = s := by
  have h2 : ¬ (s.capacity < s.inner.length) := Nat.not_lt.mpr h
  cases fuel <;> simp [RingBuffer.evictBackN, h2]

theorem to_capacity_front_none_of_le {α : Type} (s : RingBuffer α)
    (h : s.inner.length ≤ s.capacity) : s.to_capacity_front none = s := by
  have h2 : ({ s with capacity := (none : Option ℕ).getD s.capacity }) = s := rfl
  unfold RingBuffer.to_capacity_front
  rw [h2]
  exact evictFrontN_of_le _ _ h

theorem to_capacity_back_none_of_le {α : Type} (s : RingBuffer α)
    (h : s.inner.length ≤ s.capacity) : s.to_capacity_back none = s := by
  have h2 : ({ s with capacity := (none : Option ℕ).getD s.capacity }) = s := rfl
  unfold RingBuffer.to_capacity_back
  rw [h2]
  exact evictBackN_of_le _ _ h

theorem push_back_of_zero {α : Type} (s : RingBuffer α) (a : α) (h : s.capacity = 0) :
    s.push_back a = s := by
  simp [RingBuffer.push_back, h]

theorem push_front_of_zero {α : Type} (s : RingBuffer α) (a : α) (h : s.capacity = 0) :
    s.push_front a = s := by
  simp [RingBuffer.push_front, h]

theorem push_back_of_lt {α : Type} (s : RingBuffer α) (a : α) (h0 : s.capacity ≠ 0)
    (h : s.inner.length < s.capacity) :
    s.push_back a = ⟨s.inner ++ [a], s.capacity⟩ := by
  unfold RingBuffer.push_back
  rw [if_neg h0]
  simp only [to_capacity_front_none_of_le s (le_of_lt h)]
  rw [if_neg (Nat.ne_of_lt h)]

theorem push_front_of_lt {α : Type} (s : RingBuffer α) (a : α) (h0 : s.capacity ≠ 0)
    (h : s.inner.length < s.capacity) :
    s.push_front a = ⟨a :: s.inner, s.capacity⟩ := by
  unfold RingBuffer.push_front
  rw [if_neg h0]
  simp only [to_capacity_back_none_of_le s (le_of_lt h)]
  rw [if_neg (Nat.ne_of_lt h)]

theorem push_back_of_eq {α : Type} (s : RingBuffer α) (a : α) (h0 : s.capacity ≠ 0)
    (h : s.inner.length = s.capacity) :
    s.push_back a = ⟨s.inner.tail ++ [a], s.capacity⟩ := by
  unfold RingBuffer.push_back
  rw [if_neg h0]
  simp only [to_capacity_front_none_of_le s (le_of_eq h)]
  rw [if_pos h]
  have hne : s.inner ≠ [] := by
    intro hnil
    rw [hnil] at h
    simp at h
    exact h0 h.symm
  rcases s with ⟨inner, cap⟩
  cases inner with
  | nil => exact absurd rfl hne
  | cons b t => simp [RingBuffer.pop_front, h0]

theorem push_front_of_eq {α : Type} (s : RingBuffer α) (a : α) (h0 : s.capacity ≠ 0)
    (h : s.inner.length = s.capacity) :
    s.push_front a = ⟨a :: s.inner.dropLast, s.capacity⟩ := by
  unfold RingBuffer.push_front
  rw [if_neg h0]
  simp only [to_capacity_back_none_of_le s (le_of_eq h)]
  rw [if_pos h]
  have hne : s.inner ≠ [] := by
    intro hnil
    rw [hnil] at h
    simp at h
    exact h0 h.symm
  rcases s with ⟨inner, cap⟩
  simp only [RingBuffer.pop_back, if_neg h0]
  rw [List.getLast?_eq_getLast _ hne]

theorem push_back_length {α : Type} (s : RingBuffer α) (a : α)
    (h : s.inner.length ≤ s.capacity) :
    (s.push_back a).inner.length = min (s.inner.length + 1) s.capacity ∧
      (s.push_back a).capacity = s.capacity := by
  by_cases h0 : s.capacity = 0
  · rw [push_back_of_zero s a h0]
    constructor
    · omega
    · rfl
  · rcases Nat.lt_or_ge s.inner.length s.capacity with hlt | hge
    · rw [push_back_of_lt s a h0 hlt]
      constructor
      · simp
        omega
      · rfl
    · have heq : s.inner.length = s.capacity := le_antisymm h hge
      rw [push_back_of_eq s a h0 heq]
      constructor
      · simp [List.length_tail]
        omega
      · rfl

theorem push_front_length {α : Type} (s : RingBuffer α) (a : α)
    (h : s.inner.length ≤ s.capacity) :
    (s.push_front a).inner.length = min (s.inner.length + 1) s.capacity ∧
      (s.push_front a).capacity = s.capacity := by
  by_cases h0 : s.capacity = 0
  · rw [push_front_of_zero s a h0]
    constructor
    · omega
    · rfl
  · rcases Nat.lt_or_ge s.inner.length s.capacity with hlt | hge
    · rw [push_front_of_lt s a h0 hlt]
      constructor
      · simp
        omega
      · rfl
    · have heq : s.inner.length = s.capacity := le_antisymm h hge
      rw [push_front_of_eq s a h0 heq]
      constructor
      · simp [List.length_dropLast]
        omega
      · rfl

theorem pushSeq_length (s : RingBuffer ℚ) (ops : List (Bool × ℚ))
    (h : s.inner.length ≤ s.capacity) :
    (pushSeq s ops).inner.length ≤ (pushSeq s ops).capacity ∧
      (pushSeq s ops).capacity = s.capacity := by
  induction ops generalizing s with
  | nil => exact ⟨h, rfl⟩
  | cons p ps ih =>
    by_cases hb : p.1
    · have step := push_back_length s p.2 h
      have := ih (s.push_back p.2) (by rw [step.2]; omega)
      simp only [pushSeq, hb, if_pos]
      exact ⟨this.1, by rw [this.2, step.2]⟩
    · have step := push_front_length s p.2 h
      have := ih (s.push_front p.2) (by rw [step.2]; omega)
      simp only [pushSeq, hb, if_neg]
      simp only [Bool.false_eq_true, if_false]
      exact ⟨this.1, by rw [this.2, step.2]⟩

/-! next_power_of_two lemmas. -/

theorem nextPow2Go_ge (fuel n power : ℕ) (h : n ≤ 2 ^ fuel * power) :
    n ≤ nextPow2Go fuel n power := by
  induction fuel generalizing power with
  | zero =>
    simpa [nextPow2Go] using h
  | succ m ih =>
    by_cases hlt : power < n
    · simp only [nextPow2Go, if_pos hlt]
      refine ih (power * 2) ?_
      calc n ≤ 2 ^ (m + 1) * power := h
        _ = 2 ^ m * (power * 2) := by ring
    · simp only [nextPow2Go, if_neg hlt]
      omega

theorem nextPow2Go_pow (fuel n power : ℕ) (h : ∃ k, power = 2 ^ k) :
    ∃ k, nextPow2Go fuel n power = 2 ^ k := by
  induction fuel generalizing power with
  | zero => exact h
  | succ m ih =>
    by_cases hlt : power < n
    · simp only [nextPow2Go, if_pos hlt]
      rcases h with ⟨k, hk⟩
      exact ih (power * 2) ⟨k + 1, by rw [hk, pow_succ]⟩
    · simp only [nextPow2Go, if_neg hlt]
      exact h

theorem nextPow2_ge (n : ℕ) : n ≤ nextPow2 n :=
  nextPow2Go_ge n n 1 (by have := Nat.lt_two_pow n; omega)

theorem nextPow2_pow (n : ℕ) : ∃ k, nextPow2 n = 2 ^ k :=
  nextPow2Go_pow n n 1 ⟨0, rfl⟩

theorem nextPow2_pos (n : ℕ) : 0 < nextPow2 n := by
  rcases nextPow2_pow n with ⟨k, hk⟩
  rw [hk]
  exact Nat.pos_pow_of_pos k (by omega)

/-! padded_window_size lemmas. -/

theorem pws_ge (irSize w : ℕ) :
    irSize + w - 1 ≤ FFTConvolution.padded_window_size irSize w :=
  nextPow2_ge _

theorem pws_pos (irSize w : ℕ) : 0 < FFTConvolution.padded_window_size irSize w :=
  nextPow2_pos _

theorem pws_ge_ir (irSize w : ℕ) (hw : 1 ≤ w) :
    irSize ≤ FFTConvolution.padded_window_size irSize w := by
  have := pws_ge irSize w
  omega

theorem pws_ge_w (irSize w : ℕ) (hir : 1 ≤ irSize) :
    w ≤ FFTConvolution.padded_window_size irSize w := by
  have := pws_ge irSize w
  omega

/-- Claim C10: FFTConvolution::new evaluates ir.len() + window_size - 1 in
usize arithmetic, which underflows exactly when ir is empty and window_size
is 0 (a panic rather than graceful degradation); whenever
ir.len() + window_size >= 1 the subtraction is well defined and the resulting
padded window size is a power of two, at least 1 and at least
ir.len() + window_size - 1. -/
theorem c10_padded_window_size_underflow (irSize w : ℕ) :
    (FFTConvolution.padded_window_size_checked irSize w = none ↔ irSize = 0 ∧ w = 0) ∧
    (1 ≤ irSize + w →
      ∃ k, FFTConvolution.padded_window_size_checked irSize w = some (2 ^ k) ∧
        1 ≤ 2 ^ k ∧ irSize + w - 1 ≤ 2 ^ k) := by
  constructor
  · unfold FFTConvolution.padded_window_size_checked
    constructor
    · intro h
      by_cases hz : irSize + w = 0
      · omega
      · simp [hz] at h
    · intro h
      simp [h.1, h.2]
  · intro h
    rcases nextPow2_pow (irSize + w - 1) with ⟨k, hk⟩
    refine ⟨k, ?_, ?_, ?_⟩
    · unfold FFTConvolution.padded_window_size_checked FFTConvolution.padded_window_size
      rw [if_neg (by omega), hk]
    · exact Nat.pos_pow_of_pos k (by omega)
    · rw [← hk]
      exact nextPow2_ge _

/-- Witness for C10 at ir length 2, window size 3: the padded size is the
power of two 4. -/
theorem c10_padded_window_size_underflow_witness :
    ∃ k, FFTConvolution.padded_window_size_checked 2 3 = some (2 ^ k) ∧
      1 ≤ 2 ^ k ∧ 2 + 3 - 1 ≤ 2 ^ k :=
  (c10_padded_window_size_underflow 2 3).2 (by omega)

/-- Claim C5: for every sequence of push_back and push_front operations the
length never exceeds the declared capacity; a push on a zero-capacity buffer
is a no-op; a push on a buffer at capacity first evicts exactly one element
from the opposite end (push_back evicts the front element, push_front the
back element); pushes below capacity append at the respective end, so FIFO
order of same-end pushes is preserved. -/
theorem c5_push_spec (s : RingBuffer ℚ) (a : ℚ) (h : s.inner.length ≤ s.capacity) :
    (∀ c ops, (pushSeq (RingBuffer.new ℚ c) ops).inner.length ≤ c) ∧
    (s.push_back a).inner.length ≤ s.capacity ∧
    (s.push_front a).inner.length ≤ s.capacity ∧
    (s.capacity = 0 → s.push_back a = s ∧ s.push_front a = s) ∧
    (s.capacity ≠ 0 → s.inner.length = s.capacity →
      s.push_back a = ⟨s.inner.tail ++ [a], s.capacity⟩ ∧
      s.push_front a = ⟨a :: s.inner.dropLast, s.capacity⟩) ∧
    (s.inner.length < s.capacity →
      s.push_back a = ⟨s.inner ++ [a], s.capacity⟩ ∧
      s.push_front a = ⟨a :: s.inner, s.capacity⟩) := by
  refine ⟨?_, ?_, ?_, ?_, ?_, ?_⟩
  · intro c ops
    have := pushSeq_length (RingBuffer.new ℚ c) ops (by simp [RingBuffer.new])
    rw [this.2] at this
    exact this.1
  · have := push_back_length s a h
    omega
  · have := push_front_length s a h
    omega
  · intro h0
    exact ⟨push_back_of_zero s a h0, push_front_of_zero s a h0⟩
  · intro h0 heq
    exact ⟨push_back_of_eq s a h0 heq, push_front_of_eq s a h0 heq⟩
  · intro hlt
    have h0 : s.capacity ≠ 0 := by omega
    exact ⟨push_back_of_lt s a h0 hlt, push_front_of_lt s a h0 hlt⟩

/-- Witness for C5 at a concrete full buffer of capacity 2: pushing 5 at the
back evicts the front element. -/
theorem c5_push_spec_witness :
    (⟨[1, 2], 2⟩ : RingBuffer ℚ).push_back 5 = ⟨[2, 5], 2⟩ :=
  ((c5_push_spec ⟨[1, 2], 2⟩ 5 (by simp)).2.2.2.2.1 (by simp) (by simp)).1

/-! Chunking accumulator lemmas (claim C2). -/

theorem bbRun_length (c : ℕ) (hc : 0 < c) (f : ℕ → ℚ) (n : ℕ) :
    (bbRun c f n).inner.length = n % c ∧ (bbRun c f n).capacity = c := by
  induction n with
  | zero => simp [bbRun, RingBuffer.new, Nat.zero_mod]
  | succ m ih =>
    have hlen : (bbRun c f m).inner.length = m % c := ih.1
    have hcap : (bbRun c f m).capacity = c := ih.2
    have hlt : (bbRun c f m).inner.length < c := by
      rw [hlen]
      exact Nat.mod_lt m hc
    have hpush : (bbRun c f m).push_back (f m) =
        ⟨(bbRun c f m).inner ++ [f m], c⟩ := by
      rw [push_back_of_lt _ _ (by omega) (by omega), hcap]
    have hmod := Nat.div_add_mod m c
    by_cases hfull : m % c + 1 = c
    · have h1 : (m + 1) % c = 0 := by
        have : m + 1 = c * (m / c + 1) := by rw [Nat.mul_succ]; omega
        rw [this]
        exact Nat.mul_mod_right c _
      simp only [bbRun, RingBuffer.buffer_back, hpush]
      rw [if_pos (by simp [hlen]; omega)]
      simp [RingBuffer.clear, h1]
    · have h1 : (m + 1) % c = m % c + 1 := by
        have h2 : m + 1 = c * (m / c) + (m % c + 1) := by omega
        rw [h2, Nat.mul_add_mod]
        exact Nat.mod_eq_of_lt (by omega)
      simp only [bbRun, RingBuffer.buffer_back, hpush]
      rw [if_neg (by simp [hlen]; omega)]
      simp [hlen, h1]

theorem bfRun_length (c : ℕ) (hc : 0 < c) (f : ℕ → ℚ) (n : ℕ) :
    (bfRun c f n).inner.length = n % c ∧ (bfRun c f n).capacity = c := by
  induction n with
  | zero => simp [bfRun, RingBuffer.new, Nat.zero_mod]
  | succ m ih =>
    have hlen : (bfRun c f m).inner.length = m % c := ih.1
    have hcap : (bfRun c f m).capacity = c := ih.2
    have hlt : (bfRun c f m).inner.length < c := by
      rw [hlen]
      exact Nat.mod_lt m hc
    have hpush : (bfRun c f m).push_front (f m) =
        ⟨f m :: (bfRun c f m).inner, c⟩ := by
      rw [push_front_of_lt _ _ (by omega) (by omega), hcap]
    have hmod := Nat.div_add_mod m c
    by_cases hfull : m % c + 1 = c
    · have h1 : (m + 1) % c = 0 := by
        have : m + 1 = c * (m / c + 1) := by rw [Nat.mul_succ]; omega
        rw [this]
        exact Nat.mul_mod_right c _
      simp only [bfRun, RingBuffer.buffer_front, hpush]
      rw [if_pos (by simp [hlen]; omega)]
      simp [RingBuffer.clear, h1]
    · have h1 : (m + 1) % c = m % c + 1 := by
        have h2 : m + 1 = c * (m / c) + (m % c + 1) := by omega
        rw [h2, Nat.mul_add_mod]
        exact Nat.mod_eq_of_lt (by omega)
      simp only [bfRun, RingBuffer.buffer_front, hpush]
      rw [if_neg (by simp [hlen]; omega)]
      simp [hlen, h1]

/-- Claim C2 (amended): for every capacity c >= 1, buffer_back and
buffer_front emit a block exactly at every c-th call since the last emission
or construction (call n, counting from 0, emits iff (n+1) mod c = 0); the
emitted block always has length exactly c (never a partial block) and the
internal buffer is empty immediately after an emission.  The original claim
also covered capacity 0, where the code instead emits an empty block on
every call; see the counterexample. -/
theorem c2_chunked_buffer_emission (c : ℕ) (hc : 0 < c) (f : ℕ → ℚ) (n : ℕ) :
    ((bbOut c f n).isSome ↔ (n + 1) % c = 0) ∧
    (∀ blk, bbOut c f n = some blk →
      blk.length = c ∧ (bbRun c f (n + 1)).inner.length = 0) ∧
    ((bfOut c f n).isSome ↔ (n + 1) % c = 0) ∧
    (∀ blk, bfOut c f n = some blk →
      blk.length = 0 + c ∧ (bfRun c f (n + 1)).inner.length = 0) := by
  have hb := bbRun_length c hc f n
  have hb1 := bbRun_length c hc f (n + 1)
  have hf := bfRun_length c hc f n
  have hf1 := bfRun_length c hc f (n + 1)
  have hbpush : (bbRun c f n).push_back (f n) = ⟨(bbRun c f n).inner ++ [f n], c⟩ := by
    rw [push_back_of_lt _ _ (by omega) (by rw [hb.1, hb.2]; exact Nat.mod_lt n hc), hb.2]
  have hfpush : (bfRun c f n).push_front (f n) = ⟨f n :: (bfRun c f n).inner, c⟩ := by
    rw [push_front_of_lt _ _ (by omega) (by rw [hf.1, hf.2]; exact Nat.mod_lt n hc), hf.2]
  have hmod := Nat.div_add_mod n c
  have hiff : (n % c + 1 = c) ↔ ((n + 1) % c = 0) := by
    constructor
    · intro hfull
      have : n + 1 = c * (n / c + 1) := by rw [Nat.mul_succ]; omega
      rw [this]
      exact Nat.mul_mod_right c _
    · intro hz
      by_contra hne
      have h2 : n + 1 = c * (n / c) + (n % c + 1) := by omega
      rw [h2, Nat.mul_add_mod, Nat.mod_eq_of_lt (by have := Nat.mod_lt n hc; omega)] at hz
      omega
  refine ⟨?_, ?_, ?_, ?_⟩
  · unfold bbOut
    rw [RingBuffer.buffer_back, hbpush]
    by_cases hfull : n % c + 1 = c
    · rw [if_pos (by simp [hb.1]; omega)]
      simp [hiff.mp hfull]
    · rw [if_neg (by simp [hb.1]; omega)]
      simp
      intro hz
      exact hfull (hiff.mpr hz)
  · intro blk hblk
    unfold bbOut at hblk
    rw [RingBuffer.buffer_back, hbpush] at hblk
    by_cases hfull : n % c + 1 = c
    · rw [if_pos (by simp [hb.1]; omega)] at hblk
      simp at hblk
      constructor
      · rw [← hblk]
        simp [hb.1]
        omega
      · rw [hb1.1]
        exact hiff.mp hfull
    · rw [if_neg (by simp [hb.1]; omega)] at hblk
      simp at hblk
  · unfold bfOut
    rw [RingBuffer.buffer_front, hfpush]
    by_cases hfull : n % c + 1 = c
    · rw [if_pos (by simp [hf.1]; omega)]
      simp [hiff.mp hfull]
    · rw [if_neg (by simp [hf.1]; omega)]
      simp
      intro hz
      exact hfull (hiff.mpr hz)
  · intro blk hblk
    unfold bfOut at hblk
    rw [RingBuffer.buffer_front, hfpush] at hblk
    by_cases hfull : n % c + 1 = c
    · rw [if_pos (by simp [hf.1]; omega)] at hblk
      simp at hblk
      constructor
      · rw [← hblk]
        simp [hf.1]
        omega
      · rw [hf1.1]
        exact hiff.mp hfull
    · rw [if_neg (by simp [hf.1]; omega)] at hblk
      simp at hblk

/-- Witness for C2 at capacity 3: call 2 (the third call) emits, and the
emitted block has length 3 with the buffer reset to empty. -/
theorem c2_chunked_buffer_emission_witness :
    ((bbOut 3 (fun k => (k : ℚ)) 2).isSome ↔ (2 + 1) % 3 = 0) := by
  exact (c2_chunked_buffer_emission 3 (by omega) (fun k => (k : ℚ)) 2).1

/-- Counterexample for C2 as stated: with capacity 0, the very first
buffer_back call (one item pushed since construction, not zero) already
returns Some, and it keeps doing so on every call, contradicting the claimed
emission rule, which for capacity 0 predicts no emission (the call count
since the last emission is always at least 1, never 0). -/
theorem c2_chunked_buffer_emission_counterexample :
    ¬ ((bbOut 0 (fun _ => (1 : ℚ)) 0).isSome ↔ (0 + 1) % 0 = 0) := by
  decide

/-! Eviction loop lemmas (claim C3). -/

theorem loopFront_spec {α : Type} (l : List α) (c : ℕ) (h : 0 < c ∨ l.length ≤ c) :
    RingBuffer.loopFrontFuel l.length ⟨l, c⟩ = some ⟨l.drop (l.length - c), c⟩ := by
  induction l with
  | nil =>
    simp [RingBuffer.loopFrontFuel]
  | cons a t ih =>
    by_cases hlt : c < t.length + 1
    · have hc : 0 < c := by
        rcases h with h1 | h1
        · exact h1
        · simp at h1; omega
      have hc0 : c ≠ 0 := by omega
      have hstep : (RingBuffer.pop_front ⟨a :: t, c⟩).2 = ⟨t, c⟩ := by
        simp [RingBuffer.pop_front, hc0]
      simp only [List.length_cons, RingBuffer.loopFrontFuel]
      rw [if_pos hlt, hstep, ih (Or.inl hc)]
      have hd : (a :: t).drop (t.length + 1 - c) = t.drop (t.length - c) := by
        have h2 : t.length + 1 - c = (t.length - c) + 1 := by omega
        rw [h2, List.drop_succ_cons]
      rw [hd]
    · simp only [List.length_cons, RingBuffer.loopFrontFuel]
      rw [if_neg hlt]
      have h2 : t.length + 1 - c = 0 := by omega
      rw [h2, List.drop_zero]

theorem loopBack_spec {α : Type} (n : ℕ) (l : List α) (c : ℕ) (hn : l.length = n)
    (h : 0 < c ∨ l.length ≤ c) :
    RingBuffer.loopBackFuel n ⟨l, c⟩ = some ⟨l.take (min c l.length), c⟩ := by
  induction n generalizing l with
  | zero =>
    have : l = [] := List.eq_nil_of_length_eq_zero hn
    subst this
    simp [RingBuffer.loopBackFuel]
  | succ m ih =>
    by_cases hlt : c < l.length
    · have hc : 0 < c := by
        rcases h with h1 | h1
        · exact h1
        · omega
      have hc0 : c ≠ 0 := by omega
      have hne : l ≠ [] := by
        intro hnil
        subst hnil
        simp at hn
      have hstep : (RingBuffer.pop_back ⟨l, c⟩).2 = ⟨l.dropLast, c⟩ := by
        simp only [RingBuffer.pop_back, if_neg hc0]
        rw [List.getLast?_eq_getLast _ hne]
      have hcond : c < (⟨l, c⟩ : RingBuffer α).inner.length := hlt
      simp only [RingBuffer.loopBackFuel]
      rw [if_pos hcond, hstep, ih l.dropLast (by simp [List.length_dropLast]; omega) (Or.inl hc)]
      have hmin1 : min c l.length = c := by omega
      have hmin2 : min c l.dropLast.length = c := by
        simp [List.length_dropLast]
        omega
      rw [hmin1, hmin2]
      have : l.dropLast.take c = l.take c := by
        rw [List.dropLast_eq_take, List.take_take]
        congr 1
        omega
      rw [this]
    · have hcond : ¬ c < (⟨l, c⟩ : RingBuffer α).inner.length := hlt
      simp only [RingBuffer.loopBackFuel]
      rw [if_neg hcond]
      have hmin : min c l.length = l.length := by omega
      rw [hmin, List.take_length]

theorem loopFront_diverges {α : Type} (l : List α) (h : l ≠ []) (fuel : ℕ) :
    RingBuffer.loopFrontFuel fuel (⟨l, 0⟩ : RingBuffer α) = none := by
  induction fuel with
  | zero =>
    simp only [RingBuffer.loopFrontFuel, if_pos (by simpa using List.length_pos.mpr h)]
  | succ m ih =>
    simp only [RingBuffer.loopFrontFuel, if_pos (by simpa using List.length_pos.mpr h)]
    have : (RingBuffer.pop_front (⟨l, 0⟩ : RingBuffer α)).2 = ⟨l, 0⟩ := by
      simp [RingBuffer.pop_front]
    rw [this]
    exact ih

theorem loopBack_diverges {α : Type} (l : List α) (h : l ≠ []) (fuel : ℕ) :
    RingBuffer.loopBackFuel fuel (⟨l, 0⟩ : RingBuffer α) = none := by
  induction fuel with
  | zero =>
    simp only [RingBuffer.loopBackFuel, if_pos (by simpa using List.length_pos.mpr h)]
  | succ m ih =>
    simp only [RingBuffer.loopBackFuel, if_pos (by simpa using List.length_pos.mpr h)]
    have : (RingBuffer.pop_back (⟨l, 0⟩ : RingBuffer α)).2 = ⟨l, 0⟩ := by
      simp [RingBuffer.pop_back]
    rw [this]
    exact ih

/-- Claim C3 (amended): to_capacity_front (resp. to_capacity_back) with a
requested new capacity terminates whenever the new capacity is positive or
no eviction is needed, having set the capacity and evicted elements from the
front (resp. back) until the length is at most the new capacity.  With new
capacity 0 and a nonempty buffer the source loop never terminates, because
pop_front and pop_back are no-ops on a zero-capacity buffer; see the
counterexample. -/
theorem c3_to_capacity_terminates (s : RingBuffer ℚ) (c : ℕ)
    (h : 0 < c ∨ s.inner.length ≤ c) :
    (∃ fuel s2, s.toCapacityFrontFuel fuel (some c) = some s2 ∧ s2.capacity = c ∧
      s2.inner.length ≤ c ∧ s2.inner = s.inner.drop (s.inner.length - c)) ∧
    (∃ fuel s2, s.toCapacityBackFuel fuel (some c) = some s2 ∧ s2.capacity = c ∧
      s2.inner.length ≤ c ∧ s2.inner = s.inner.take (min c s.inner.length)) := by
  constructor
  · refine ⟨s.inner.length, ⟨s.inner.drop (s.inner.length - c), c⟩, ?_, rfl, ?_, rfl⟩
    · unfold RingBuffer.toCapacityFrontFuel
      have : ({ s with capacity := (some c).getD s.capacity }) = ⟨s.inner, c⟩ := rfl
      rw [this]
      exact loopFront_spec s.inner c h
    · simp [List.length_drop]
      omega
  · refine ⟨s.inner.length, ⟨s.inner.take (min c s.inner.length), c⟩, ?_, rfl, ?_, rfl⟩
    · unfold RingBuffer.toCapacityBackFuel
      have : ({ s with capacity := (some c).getD s.capacity }) = ⟨s.inner, c⟩ := rfl
      rw [this]
      exact loopBack_spec s.inner.length s.inner c rfl h
    · simp [List.length_take]

/-- Witness for C3 at a concrete buffer [1,2,3] of capacity 3 shrunk to
capacity 1. -/
theorem c3_to_capacity_terminates_witness :
    ∃ fuel s2, RingBuffer.toCapacityFrontFuel fuel (⟨[1, 2, 3], 3⟩ : RingBuffer ℚ)
        (some 1) = some s2 ∧ s2.capacity = 1 ∧ s2.inner.length ≤ 1 ∧
      s2.inner = [1, 2, 3].drop ([1, 2, 3].length - 1) :=
  (c3_to_capacity_terminates ⟨[1, 2, 3], 3⟩ 1 (by omega)).1

/-- Counterexample for C3 as stated: shrinking a nonempty buffer to capacity 0
never terminates; the eviction loop makes no progress for any number of
iterations, on the front side and on the back side alike. -/
theorem c3_to_capacity_terminates_counterexample :
    (fun fuel => RingBuffer.toCapacityFrontFuel fuel
        (RingBuffer.from_deque ([1, 2, 3] : List ℚ)) (some 0)) =
      (fun _ => none) ∧
    (fun fuel => RingBuffer.toCapacityBackFuel fuel
        (RingBuffer.from_deque ([1, 2, 3] : List ℚ)) (some 0)) =
      (fun _ => none) := by
  constructor
  · funext fuel
    exact loopFront_diverges [1, 2, 3] (by simp) fuel
  · funext fuel
    exact loopBack_diverges [1, 2, 3] (by simp) fuel

/-! Re-initialisation lemmas. -/

theorem pushN_spec {α : Type} (a : α) (k : ℕ) (l : List α) (c : ℕ) (h : l.length ≤ c) :
    RingBuffer.pushN ⟨l, c⟩ a k = ⟨(l ++ List.replicate k a).drop (l.length + k - c), c⟩ := by
  induction k with
  | zero =>
    simp [RingBuffer.pushN, Nat.sub_eq_zero_of_le h]
  | succ k ih =>
    show (RingBuffer.pushN ⟨l, c⟩ a k).push_back a = _
    rw [ih]
    by_cases hc : c = 0
    · subst hc
      have hl : l = [] := List.eq_nil_of_length_eq_zero (by omega)
      subst hl
      rw [push_back_of_zero _ _ rfl]
      simp
    · have hdlen : ((l ++ List.replicate k a).drop (l.length + k - c)).length =
          min (l.length + k) c := by
        simp [List.length_drop]
        omega
      by_cases hlt : l.length + k < c
      · have hz : l.length + k - c = 0 := by omega
        have hz1 : l.length + (k + 1) - c = 0 := by omega
        rw [push_back_of_lt _ _ hc (by rw [hdlen]; show min (l.length + k) c < c; omega)]
        rw [hz, hz1]
        simp [List.replicate_succ', List.append_assoc]
      · have hfull : ((l ++ List.replicate k a).drop (l.length + k - c)).length = c := by
          rw [hdlen]; omega
        rw [push_back_of_eq _ _ hc hfull]
        congr 1
        rw [List.tail_drop]
        have hle : l.length + k - c + 1 ≤ (l ++ List.replicate k a).length := by
          simp
          omega
        rw [← List.drop_append_of_le_length hle]
        have h1 : (l ++ List.replicate k a) ++ [a] = l ++ List.replicate (k + 1) a := by
          rw [List.replicate_succ', List.append_assoc]
        rw [h1]
        congr 1
        omega

theorem reinit_spec {α : Type} (l : List α) (c : ℕ) (a : α) (h : l.length ≤ c) :
    RingBuffer.reinit ⟨l, c⟩ a = ⟨List.replicate c a, c⟩ := by
  unfold RingBuffer.reinit
  rw [pushN_spec a c l c h]
  congr 1
  have h1 : l.length + c - c = l.length := by omega
  rw [h1]
  exact List.drop_left l _

theorem initFull_new {α : Type} (n : ℕ) (a : α) :
    (RingBuffer.new α n).initFull a = ⟨List.replicate n a, n⟩ :=
  reinit_spec [] n a (by simp)

/-! buffer_back case analysis and pop characterisation. -/

theorem pop_front_cons {α : Type} (c : ℕ) (hc : c ≠ 0) (a : α) (l : List α) :
    RingBuffer.pop_front ⟨a :: l, c⟩ = (some a, ⟨l, c⟩) := by
  simp [RingBuffer.pop_front, hc]

theorem buffer_back_lt (s : RingBuffer ℚ) (a : ℚ) (h0 : s.capacity ≠ 0)
    (h : s.inner.length + 1 < s.capacity) :
    s.buffer_back a = (none, ⟨s.inner ++ [a], s.capacity⟩) := by
  unfold RingBuffer.buffer_back
  rw [push_back_of_lt s a h0 (by omega)]
  rw [if_neg (by simp; omega)]

theorem buffer_back_full (s : RingBuffer ℚ) (a : ℚ) (h0 : s.capacity ≠ 0)
    (h : s.inner.length + 1 = s.capacity) :
    s.buffer_back a = (some (s.inner ++ [a]), ⟨[], s.capacity⟩) := by
  unfold RingBuffer.buffer_back
  rw [push_back_of_lt s a h0 (by omega)]
  rw [if_pos (by simp; omega)]
  rfl

theorem buffer_back_cases (s : RingBuffer ℚ) (a : ℚ) (hx : s.inner.length ≤ s.capacity) :
    (s.buffer_back a = (none, ⟨s.inner ++ [a], s.capacity⟩) ∧
      s.inner.length + 1 < s.capacity) ∨
    (∃ chunk, s.buffer_back a = (some chunk, ⟨[], s.capacity⟩) ∧
      chunk.length = s.capacity ∧ ∀ e ∈ chunk, e ∈ s.inner ∨ e = a) := by
  by_cases h0 : s.capacity = 0
  · right
    have hl : s.inner = [] := List.eq_nil_of_length_eq_zero (by omega)
    refine ⟨[], ?_, by simp [h0], by simp⟩
    unfold RingBuffer.buffer_back
    rw [push_back_of_zero s a h0]
    rw [if_pos (by rw [hl, h0]; rfl)]
    rw [RingBuffer.clear, hl, h0]
  · by_cases hlt : s.inner.length + 1 < s.capacity
    · exact Or.inl ⟨buffer_back_lt s a h0 hlt, hlt⟩
    · right
      by_cases heq : s.inner.length + 1 = s.capacity
      · refine ⟨s.inner ++ [a], buffer_back_full s a h0 heq, by simp; omega, ?_⟩
        intro e he
        rcases List.mem_append.mp he with h1 | h1
        · exact Or.inl h1
        · exact Or.inr (by simpa using h1)
      · have hfull : s.inner.length = s.capacity := by omega
        refine ⟨s.inner.tail ++ [a], ?_, by simp [List.length_tail]; omega, ?_⟩
        · unfold RingBuffer.buffer_back
          rw [push_back_of_eq s a h0 hfull]
          rw [if_pos (by simp [List.length_tail]; omega)]
          rfl
        · intro e he
          rcases List.mem_append.mp he with h1 | h1
          · exact Or.inl (List.mem_of_mem_tail h1)
          · exact Or.inr (by simpa using h1)

/-! addInto and cyclicConv basic lemmas. -/

theorem addInto_length (xs bs : List ℚ) : (addInto xs bs).length = xs.length := by
  induction xs generalizing bs with
  | nil => cases bs <;> rfl
  | cons x t ih =>
    cases bs with
    | nil => rfl
    | cons b bt => simp [addInto, ih]

theorem addInto_getD (xs bs : List ℚ) (i : ℕ) (hi : i < xs.length) (hb : i < bs.length) :
    (addInto xs bs).getD i 0 = xs.getD i 0 + bs.getD i 0 := by
  induction xs generalizing bs i with
  | nil => simp at hi
  | cons x t ih =>
    cases bs with
    | nil => simp at hb
    | cons b bt =>
      cases i with
      | zero => rfl
      | succ j =>
        simp only [addInto, List.getD_cons_succ]
        exact ih bt j (by simpa using hi) (by simpa using hb)

theorem cyclicConv_length (n : ℕ) (a b : List ℚ) : (cyclicConv n a b).length = n := by
  simp [cyclicConv]

theorem cyclicConv_getD (n : ℕ) (a b : List ℚ) (i : ℕ) (hi : i < n) :
    (cyclicConv n a b).getD i 0 =
      ∑ j ∈ Finset.range n, a.getD j 0 * b.getD ((i + n - j) % n) 0 := by
  unfold cyclicConv
  exact getD_map_range _ n i hi

/-! Generic inversion of a successful compute call. -/

theorem compute_inversion (s : FFTConvolution) (q y : ℚ) (s2 : FFTConvolution)
    (hx : s.x.inner.length ≤ s.x.capacity)
    (holen : s.out.inner.length = s.out.capacity)
    (h : s.compute q = some (y, s2)) :
    ∃ b o', s.out.inner = b :: o' ∧ s.out.capacity ≠ 0 ∧ y = b ∧
      s2.ir = s.ir ∧ s2.window_size = s.window_size ∧ s2.ir_fft_cache = s.ir_fft_cache ∧
      s2.out.capacity = s.out.capacity ∧ s2.x.capacity = s.x.capacity ∧
      ((s2.x.inner = s.x.inner ++ [q] ∧ s2.out.inner = o' ++ [0] ∧
          s.x.inner.length + 1 < s.x.capacity) ∨
        (∃ chunk, chunk.length = s.x.capacity ∧ (∀ e ∈ chunk, e ∈ s.x.inner ∨ e = q) ∧
          s2.x.inner = [] ∧
          s2.out.inner = addInto (o' ++ [0])
            (cyclicConv (FFTConvolution.padded_window_size s.ir.length chunk.length)
              (chunk ++ List.replicate
                (FFTConvolution.padded_window_size s.ir.length chunk.length - chunk.length) 0)
              s.ir_fft_cache))) := by
  by_cases hcap : s.out.capacity = 0
  · exfalso
    unfold FFTConvolution.compute at h
    rw [show s.out.pop_front = (none, s.out) from by
      simp [RingBuffer.pop_front, hcap]] at h
    simp at h
  · cases hinner : s.out.inner with
    | nil =>
      exfalso
      rw [hinner] at holen
      simp at holen
      exact hcap holen.symm
    | cons b o' =>
      have hso : s.out = ⟨b :: o', s.out.capacity⟩ := by rw [← hinner]
      have hpop : s.out.pop_front = (some b, ⟨o', s.out.capacity⟩) := by
        rw [hso]
        exact pop_front_cons _ hcap b o'
      have holen2 : o'.length + 1 = s.out.capacity := by
        rw [hinner] at holen
        simpa using holen
      have hpush : (⟨o', s.out.capacity⟩ : RingBuffer ℚ).push_back 0 =
          ⟨o' ++ [0], s.out.capacity⟩ :=
        push_back_of_lt _ _ hcap (by simp; omega)
      unfold FFTConvolution.compute at h
      rw [hpop] at h
      simp only [hpush] at h
      rcases buffer_back_cases s.x q hx with ⟨hbb, hlt⟩ | ⟨chunk, hbb, hclen, hcmem⟩
      · rw [hbb] at h
        simp only [Option.some.injEq, Prod.mk.injEq] at h
        obtain ⟨hy, hs2⟩ := h
        refine ⟨b, o', rfl, hcap, hy.symm, ?_, ?_, ?_, ?_, ?_, Or.inl ⟨?_, ?_, hlt⟩⟩ <;>
          rw [← hs2]
      · rw [hbb] at h
        dsimp only at h
        by_cases hz : s.ir.length + chunk.length = 0
        · rw [if_pos hz] at h
          simp at h
        · rw [if_neg hz] at h
          by_cases hg : chunk.length ≤ FFTConvolution.padded_window_size s.ir.length chunk.length ∧
              FFTConvolution.padded_window_size s.ir.length chunk.length = s.ir_fft_cache.length
          · rw [if_pos hg] at h
            simp only [Option.some.injEq, Prod.mk.injEq] at h
            obtain ⟨hy, hs2⟩ := h
            refine ⟨b, o', rfl, hcap, hy.symm, ?_, ?_, ?_, ?_, ?_,
              Or.inr ⟨chunk, hclen, hcmem, ?_, ?_⟩⟩ <;> rw [← hs2]
          · rw [if_neg hg] at h
            simp at h

/-! Construction inversion and the structural state invariant. -/

theorem new?_inversion (ir : List ℚ) (w : ℕ) (s0 : FFTConvolution)
    (h : FFTConvolution.new? ir w = some s0) :
    0 < ir.length + w ∧ ir.length ≤ FFTConvolution.padded_window_size ir.length w ∧
    s0 = { x := ⟨[], w⟩
           out := ⟨List.replicate (FFTConvolution.padded_window_size ir.length w) 0,
             FFTConvolution.padded_window_size ir.length w⟩
           window_size := w
           ir := ir
           ir_fft_cache :=
             ir ++ List.replicate
               (FFTConvolution.padded_window_size ir.length w - ir.length) 0 } := by
  unfold FFTConvolution.new? at h
  by_cases h1 : ir.length + w = 0
  · rw [if_pos h1] at h
    simp at h
  · rw [if_neg h1] at h
    by_cases h2 : ir.length ≤ FFTConvolution.padded_window_size ir.length w
    · rw [if_pos h2] at h
      refine ⟨by omega, h2, ?_⟩
      rw [← Option.some_inj.mp h]
      rw [initFull_new]
      rfl
    · rw [if_neg h2] at h
      simp at h

theorem reinit_rb {α : Type} (rb : RingBuffer α) (a : α) (h : rb.inner.length ≤ rb.capacity) :
    rb.reinit a = ⟨List.replicate rb.capacity a, rb.capacity⟩ := by
  rcases rb with ⟨l, c⟩
  exact reinit_spec l c a h

theorem goodstate_new (ir : List ℚ) (w : ℕ) (s0 : FFTConvolution)
    (h : FFTConvolution.new? ir w = some s0) :
    GoodState s0 ∧ s0.ir = ir ∧ s0.window_size = w ∧
      s0.ir_fft_cache =
        ir ++ List.replicate
          (FFTConvolution.padded_window_size ir.length w - ir.length) 0 := by
  obtain ⟨hpos, hle, hs0⟩ := new?_inversion ir w s0 h
  subst hs0
  refine ⟨⟨rfl, by simp, by simp, by simp, by simp; omega, by simpa using hle, by simpa using hpos⟩,
    rfl, rfl, rfl⟩

theorem goodstate_compute (s : FFTConvolution) (q y : ℚ) (s2 : FFTConvolution)
    (hgs : GoodState s) (h : s.compute q = some (y, s2)) :
    GoodState s2 ∧ s2.ir = s.ir ∧ s2.window_size = s.window_size ∧
      s2.ir_fft_cache = s.ir_fft_cache := by
  obtain ⟨hxc, hxl, hoc, hol, hcl, hirle, hpos⟩ := hgs
  obtain ⟨b, o', hinner, hcap, hy, hir, hws, hcache, hocap, hxcap, hbranch⟩ :=
    compute_inversion s q y s2 (by omega) (by omega) h
  have holen2 : o'.length + 1 = s.out.capacity := by
    have := congrArg List.length hinner
    simp at this
    omega
  have houtlen : s2.out.inner.length = s.out.capacity := by
    rcases hbranch with ⟨hx2, ho2, hlt⟩ | ⟨chunk, hclen, hmem, hx2, ho2⟩
    · rw [ho2]
      simp
      omega
    · rw [ho2, addInto_length]
      simp
      omega
  have hx2len : s2.x.inner.length ≤ s.x.capacity := by
    rcases hbranch with ⟨hx2, ho2, hlt⟩ | ⟨chunk, hclen, hmem, hx2, ho2⟩
    · rw [hx2]
      simp
      omega
    · rw [hx2]
      simp
  refine ⟨⟨?_, ?_, ?_, ?_, ?_, ?_, ?_⟩, hir, hws, hcache⟩
  · rw [hxcap, hws, hxc]
  · rw [hws]
    omega
  · rw [hocap, hws, hir, hoc]
  · rw [houtlen, hws, hir, hoc]
  · rw [hcache, hws, hir, hcl]
  · rw [hws, hir]
    exact hirle
  · rw [hws, hir]
    exact hpos

theorem goodstate_clear (s : FFTConvolution) (hgs : GoodState s) :
    GoodState s.clear ∧ s.clear.ir = s.ir ∧ s.clear.window_size = s.window_size ∧
      s.clear.ir_fft_cache = s.ir_fft_cache ∧
      s.clear.x = ⟨[], s.window_size⟩ ∧
      s.clear.out = ⟨List.replicate s.out.capacity 0, s.out.capacity⟩ := by
  obtain ⟨hxc, hxl, hoc, hol, hcl, hirle, hpos⟩ := hgs
  have hout : s.out.reinit 0 = ⟨List.replicate s.out.capacity 0, s.out.capacity⟩ :=
    reinit_rb s.out 0 (by omega)
  have hxcl : s.x.clear = ⟨[], s.window_size⟩ := by
    unfold RingBuffer.clear
    rw [← hxc]
  refine ⟨⟨?_, ?_, ?_, ?_, ?_, ?_, ?_⟩, rfl, rfl, rfl, ?_, ?_⟩
  · show s.x.clear.capacity = s.window_size
    rw [hxcl]
  · show s.x.clear.inner.length ≤ s.window_size
    rw [hxcl]
    simp
  · show (s.out.reinit 0).capacity = _
    rw [hout, hoc]
    rfl
  · show (s.out.reinit 0).inner.length = _
    rw [hout]
    simp [hoc]
    rfl
  · exact hcl
  · exact hirle
  · exact hpos
  · exact hxcl
  · exact hout

theorem applyOps_invariant (s s2 : FFTConvolution) (ops : List FCOp)
    (hgs : GoodState s) (h : applyOps s ops = some s2) :
    GoodState s2 ∧ s2.ir = s.ir ∧ s2.window_size = s.window_size ∧
      s2.ir_fft_cache = s.ir_fft_cache := by
  induction ops generalizing s with
  | nil =>
    simp [applyOps] at h
    subst h
    exact ⟨hgs, rfl, rfl, rfl⟩
  | cons op rest ih =>
    simp only [applyOps] at h
    rcases hstep : applyOp s op with _ | u
    · rw [hstep] at h
      simp at h
    · rw [hstep] at h
      simp only [Option.some_bind] at h
      have hu : GoodState u ∧ u.ir = s.ir ∧ u.window_size = s.window_size ∧
          u.ir_fft_cache = s.ir_fft_cache := by
        cases op with
        | comp q =>
          simp only [applyOp] at hstep
          rcases hc : s.compute q with _ | yp
          · rw [hc] at hstep
            simp at hstep
          · rw [hc] at hstep
            simp at hstep
            rcases yp with ⟨y, u1⟩
            have := goodstate_compute s q y u1 hgs hc
            rw [show u = u1 from by rw [← hstep]]
            exact this
        | reset =>
          simp only [applyOp] at hstep
          have := goodstate_clear s hgs
          rw [show u = s.clear from by
            injection hstep with h2
            rw [← h2]]
          exact ⟨this.1, this.2.1, this.2.2.1, this.2.2.2.1⟩
      obtain ⟨hgu, hiru, hwsu, hcu⟩ := hu
      obtain ⟨hg2, hir2, hws2, hc2⟩ := ih u hgu h
      exact ⟨hg2, by rw [hir2, hiru], by rw [hws2, hwsu], by rw [hc2, hcu]⟩

/-- Claim C6: for every engine whose construction succeeds, after every
sequence of compute and clear calls the output accumulator holds exactly
padded_window_size = next_power_of_two(ir.len() + window_size - 1) elements,
so internal_buffer_size() always returns padded_window_size. -/
theorem c6_internal_buffer_size (ir : List ℚ) (w : ℕ) (ops : List FCOp)
    (s0 s : FFTConvolution) (h0 : FFTConvolution.new? ir w = some s0)
    (h : applyOps s0 ops = some s) :
    s.internal_buffer_size = FFTConvolution.padded_window_size ir.length w := by
  obtain ⟨hgs0, hir0, hws0, _⟩ := goodstate_new ir w s0 h0
  obtain ⟨hgs, hir, hws, _⟩ := applyOps_invariant s0 s ops hgs0 h
  have := hgs.2.2.2.1
  unfold FFTConvolution.internal_buffer_size
  rw [this, hir, hws, hir0, hws0]

/-- Witness for C6 after one compute call on the engine with ir [1] and
window size 1. -/
theorem c6_internal_buffer_size_witness :
    ({ x := ⟨[], 1⟩, out := ⟨[1], 1⟩, window_size := 1, ir := [1],
       ir_fft_cache := [1] } : FFTConvolution).internal_buffer_size =
      FFTConvolution.padded_window_size [(1 : ℚ)].length 1 :=
  c6_internal_buffer_size [1] 1 [FCOp.comp 1]
    { x := ⟨[], 1⟩, out := ⟨[0], 1⟩, window_size := 1, ir := [1], ir_fft_cache := [1] }
    { x := ⟨[], 1⟩, out := ⟨[1], 1⟩, window_size := 1, ir := [1], ir_fft_cache := [1] }
    (by norm_num [FFTConvolution.new?, FFTConvolution.padded_window_size, nextPow2,
      nextPow2Go, RingBuffer.new, RingBuffer.initFull, RingBuffer.reinit, RingBuffer.pushN,
      RingBuffer.push_back, RingBuffer.to_capacity_front, RingBuffer.evictFrontN,
      RingBuffer.pop_front])
    (by norm_num [applyOps, applyOp, FFTConvolution.compute, FFTConvolution.padded_window_size,
      nextPow2, nextPow2Go, RingBuffer.new, RingBuffer.push_back, RingBuffer.to_capacity_front,
      RingBuffer.evictFrontN, RingBuffer.pop_front, RingBuffer.buffer_back, RingBuffer.clear,
      cyclicConv, addInto, Finset.sum_range_succ, List.range_succ])

/-! Success of compute from well-formed states. -/

theorem stepsFrom_goodstate (f : ℕ → ℚ) (s : FFTConvolution) (t : ℕ) (s2 : FFTConvolution)
    (hgs : GoodState s) (h : FFTConvolution.stepsFrom f s t = some s2) :
    GoodState s2 ∧ s2.ir = s.ir ∧ s2.window_size = s.window_size ∧
      s2.ir_fft_cache = s.ir_fft_cache := by
  induction t generalizing s2 with
  | zero =>
    simp [FFTConvolution.stepsFrom] at h
    subst h
    exact ⟨hgs, rfl, rfl, rfl⟩
  | succ t ih =>
    simp only [FFTConvolution.stepsFrom] at h
    rcases Option.bind_eq_some.mp h with ⟨u, hu, hc⟩
    rcases Option.map_eq_some'.mp hc with ⟨⟨y, u2⟩, hcu, hu2⟩
    obtain ⟨hgu, hiru, hwsu, hcu2⟩ := ih u hu
    obtain ⟨hg2, hir2, hws2, hc2⟩ := goodstate_compute u (f t) y u2 hgu hcu
    subst hu2
    exact ⟨hg2, by rw [hir2, hiru], by rw [hws2, hwsu], by rw [hc2, hcu2]⟩

theorem runState_goodstate (ir : List ℚ) (w : ℕ) (f : ℕ → ℚ) (t : ℕ)
    (s : FFTConvolution) (h : runState ir w f t = some s) :
    GoodState s ∧ s.ir = ir ∧ s.window_size = w := by
  unfold runState at h
  rcases Option.bind_eq_some.mp h with ⟨s0, hs0, hsteps⟩
  obtain ⟨hgs0, hir0, hws0, _⟩ := goodstate_new ir w s0 hs0
  obtain ⟨hgs, hir, hws, _⟩ := stepsFrom_goodstate f s0 t s hgs0 hsteps
  exact ⟨hgs, by rw [hir, hir0], by rw [hws, hws0]⟩

theorem goodstate_pop_isSome (s : FFTConvolution) (hgs : GoodState s) :
    (s.out.pop_front).1.isSome := by
  obtain ⟨hxc, hxl, hoc, hol, hcl, hirle, hpos⟩ := hgs
  have hcap : s.out.capacity ≠ 0 := by
    have := pws_pos s.ir.length s.window_size
    omega
  cases hinner : s.out.inner with
  | nil =>
    exfalso
    rw [hinner] at hol
    have := pws_pos s.ir.length s.window_size
    simp at hol
    omega
  | cons b o' =>
    have hso : s.out = ⟨b :: o', s.out.capacity⟩ := by rw [← hinner]
    rw [hso, pop_front_cons _ hcap b o']
    rfl

theorem compute_isSome (s : FFTConvolution) (q : ℚ) (hgs : GoodState s)
    (hir : s.ir ≠ []) : (s.compute q).isSome := by
  obtain ⟨hxc, hxl, hoc, hol, hcl, hirle, hpos⟩ := hgs
  have hirlen : 1 ≤ s.ir.length := List.length_pos.mpr hir
  have hcap : s.out.capacity ≠ 0 := by
    have := pws_pos s.ir.length s.window_size
    omega
  cases hinner : s.out.inner with
  | nil =>
    exfalso
    rw [hinner] at hol
    have := pws_pos s.ir.length s.window_size
    simp at hol
    omega
  | cons b o' =>
    have hso : s.out = ⟨b :: o', s.out.capacity⟩ := by rw [← hinner]
    have hpop : s.out.pop_front = (some b, ⟨o', s.out.capacity⟩) := by
      rw [hso]
      exact pop_front_cons _ hcap b o'
    have holen2 : o'.length + 1 = s.out.capacity := by
      have := congrArg List.length hinner
      simp at this
      omega
    have hpush : (⟨o', s.out.capacity⟩ : RingBuffer ℚ).push_back 0 =
        ⟨o' ++ [0], s.out.capacity⟩ :=
      push_back_of_lt _ _ hcap (by simp; omega)
    unfold FFTConvolution.compute
    rw [hpop]
    simp only [hpush]
    rcases buffer_back_cases s.x q (by omega) with ⟨hbb, _⟩ | ⟨chunk, hbb, hclen, _⟩ <;>
      rw [hbb]
    · rfl
    · dsimp only
      rw [if_neg (by omega : ¬ (s.ir.length + chunk.length = 0))]
      rw [if_pos ?_]
      · rfl
      constructor
      · rw [hclen, hxc]
        exact pws_ge_w _ _ hirlen
      · rw [hclen, hxc, hcl]

/-- Claim C9 (amended): for every engine whose construction succeeds, at every
reachable state the output accumulator is nonempty, so the unwrap of
pop_front at the start of compute never panics; moreover compute returns a
value for every input whenever the impulse response is nonempty.  With an
empty impulse response and window size at least 2, however, compute panics
at the block padding subtraction once the first block completes, so the
original totality claim fails; see the counterexample. -/
theorem c9_compute_never_panics (ir : List ℚ) (w : ℕ) (f : ℕ → ℚ) (t : ℕ)
    (s : FFTConvolution) (h : runState ir w f t = some s) (q : ℚ) :
    (s.out.pop_front).1.isSome ∧ (ir ≠ [] → (s.compute q).isSome) := by
  obtain ⟨hgs, hir, hws⟩ := runState_goodstate ir w f t s h
  constructor
  · exact goodstate_pop_isSome s hgs
  · intro hne
    exact compute_isSome s q hgs (by rw [hir]; exact hne)

/-- Witness for C9 on the engine with ir [1] and window size 1 after one
compute call. -/
theorem c9_compute_never_panics_witness :
    (({ x := ⟨[], 1⟩, out := ⟨[1], 1⟩, window_size := 1, ir := [1],
        ir_fft_cache := [1] } : FFTConvolution).out.pop_front).1.isSome ∧
      (([1] : List ℚ) ≠ [] →
        (({ x := ⟨[], 1⟩, out := ⟨[1], 1⟩, window_size := 1, ir := [1],
            ir_fft_cache := [1] } : FFTConvolution).compute 0).isSome) :=
  c9_compute_never_panics [1] 1 (fun _ => 1) 1
    { x := ⟨[], 1⟩, out := ⟨[1], 1⟩, window_size := 1, ir := [1], ir_fft_cache := [1] }
    (by norm_num [runState, FFTConvolution.stepsFrom, FFTConvolution.new?,
      FFTConvolution.compute, FFTConvolution.padded_window_size, nextPow2, nextPow2Go,
      RingBuffer.new, RingBuffer.initFull, RingBuffer.reinit, RingBuffer.pushN,
      RingBuffer.push_back, RingBuffer.to_capacity_front, RingBuffer.evictFrontN,
      RingBuffer.pop_front, RingBuffer.buffer_back, RingBuffer.clear,
      cyclicConv, addInto, Finset.sum_range_succ, List.range_succ]) 0

/-- Counterexample for C9 as stated: with the empty impulse response and
window size 2 construction succeeds, yet the second compute call hits the
usize underflow in take(padded_window_size - window_size) (the padded size
recomputed for the completed block is 1, smaller than the block length 2),
so compute is not total. -/
theorem c9_compute_never_panics_counterexample :
    (FFTConvolution.new? [] 2).isSome = true ∧
      runState [] 2 (fun _ => 1) 2 = none := by
  constructor
  · norm_num [FFTConvolution.new?, FFTConvolution.padded_window_size, nextPow2, nextPow2Go]
  · norm_num [runState, FFTConvolution.stepsFrom, FFTConvolution.new?,
      FFTConvolution.compute, FFTConvolution.padded_window_size, nextPow2, nextPow2Go,
      RingBuffer.new, RingBuffer.initFull, RingBuffer.reinit, RingBuffer.pushN,
      RingBuffer.push_back, RingBuffer.to_capacity_front, RingBuffer.evictFrontN,
      RingBuffer.pop_front, RingBuffer.buffer_back, RingBuffer.clear,
      cyclicConv, addInto, Finset.sum_range_succ, List.range_succ]

/-! Zero propagation lemmas (claims C7 and C8). -/

theorem getD_zero_of_all (l : List ℚ) (h : ∀ e ∈ l, e = 0) (i : ℕ) : l.getD i 0 = 0 := by
  by_cases hi : i < l.length
  · rw [List.getD_eq_getElem _ _ hi]
    exact h _ (List.getElem_mem hi)
  · exact getD_zero_of_ge l i (by omega)

theorem cyclicConv_zero_right (n : ℕ) (a b : List ℚ) (hb : ∀ e ∈ b, e = 0) :
    ∀ e ∈ cyclicConv n a b, e = 0 := by
  intro e he
  simp only [cyclicConv, List.mem_map, List.mem_range] at he
  obtain ⟨i, hi, hei⟩ := he
  rw [← hei]
  refine Finset.sum_eq_zero fun j hj => ?_
  rw [getD_zero_of_all b hb]
  exact mul_zero _

theorem cyclicConv_zero_left (n : ℕ) (a b : List ℚ) (ha : ∀ e ∈ a, e = 0) :
    ∀ e ∈ cyclicConv n a b, e = 0 := by
  intro e he
  simp only [cyclicConv, List.mem_map, List.mem_range] at he
  obtain ⟨i, hi, hei⟩ := he
  rw [← hei]
  refine Finset.sum_eq_zero fun j hj => ?_
  rw [getD_zero_of_all a ha]
  exact zero_mul _

theorem addInto_zero (xs bs : List ℚ) (hx : ∀ e ∈ xs, e = 0) (hb : ∀ e ∈ bs, e = 0) :
    ∀ e ∈ addInto xs bs, e = 0 := by
  induction xs generalizing bs with
  | nil =>
    intro e he
    cases bs <;> simp [addInto] at he
  | cons x t ih =>
    intro e he
    cases bs with
    | nil => exact hx e he
    | cons b bt =>
      simp only [addInto, List.mem_cons] at he
      rcases he with he | he
      · rw [he, hx x (by simp), hb b (by simp)]
        exact add_zero 0
      · exact ih bt (fun e2 he2 => hx e2 (by simp [he2]))
          (fun e2 he2 => hb e2 (by simp [he2])) e he

theorem append_zero (l m : List ℚ) (hl : ∀ e ∈ l, e = 0) (hm : ∀ e ∈ m, e = 0) :
    ∀ e ∈ l ++ m, e = 0 := by
  intro e he
  rcases List.mem_append.mp he with h1 | h1
  · exact hl e h1
  · exact hm e h1

theorem replicate_zero (k : ℕ) : ∀ e ∈ List.replicate k (0 : ℚ), e = 0 :=
  fun _ he => List.eq_of_mem_replicate he

theorem compute_zero_cache (s : FFTConvolution) (q y : ℚ) (s2 : FFTConvolution)
    (hgs : GoodState s) (hz_out : ∀ e ∈ s.out.inner, e = 0)
    (hz_cache : ∀ e ∈ s.ir_fft_cache, e = 0) (h : s.compute q = some (y, s2)) :
    y = 0 ∧ (∀ e ∈ s2.out.inner, e = 0) ∧ (∀ e ∈ s2.ir_fft_cache, e = 0) := by
  obtain ⟨hxc, hxl, hoc, hol, hcl, hirle, hpos⟩ := hgs
  obtain ⟨b, o', hinner, hcap, hy, hir, hws, hcache, hocap, hxcap, hbranch⟩ :=
    compute_inversion s q y s2 (by omega) (by omega) h
  have hz_o : ∀ e ∈ o', e = 0 := fun e he => hz_out e (by rw [hinner]; simp [he])
  have hz_tail : ∀ e ∈ o' ++ [(0 : ℚ)], e = 0 :=
    append_zero o' [0] hz_o (by simp)
  refine ⟨by rw [hy]; exact hz_out b (by rw [hinner]; simp), ?_, by rw [hcache]; exact hz_cache⟩
  rcases hbranch with ⟨hx2, ho2, hlt⟩ | ⟨chunk, hclen, hmem, hx2, ho2⟩
  · rw [ho2]
    exact hz_tail
  · rw [ho2]
    exact addInto_zero _ _ hz_tail (cyclicConv_zero_right _ _ _ hz_cache)

theorem stepsFrom_zero_cache (f : ℕ → ℚ) (s : FFTConvolution) (t : ℕ)
    (s2 : FFTConvolution) (hgs : GoodState s) (ho : ∀ e ∈ s.out.inner, e = 0)
    (hc : ∀ e ∈ s.ir_fft_cache, e = 0) (h : FFTConvolution.stepsFrom f s t = some s2) :
    GoodState s2 ∧ (∀ e ∈ s2.out.inner, e = 0) ∧ (∀ e ∈ s2.ir_fft_cache, e = 0) := by
  induction t generalizing s2 with
  | zero =>
    simp [FFTConvolution.stepsFrom] at h
    subst h
    exact ⟨hgs, ho, hc⟩
  | succ t ih =>
    simp only [FFTConvolution.stepsFrom] at h
    rcases Option.bind_eq_some.mp h with ⟨u, hu, hcall⟩
    rcases Option.map_eq_some'.mp hcall with ⟨⟨y, u2⟩, hcu, hu2⟩
    obtain ⟨hgu, hou, hcu2⟩ := ih u hu
    obtain ⟨hg2, _, _, _⟩ := goodstate_compute u (f t) y u2 hgu hcu
    obtain ⟨_, ho2, hc2⟩ := compute_zero_cache u (f t) y u2 hgu hou hcu2 hcu
    subst hu2
    exact ⟨hg2, ho2, hc2⟩

theorem runState_zero_cache (ir : List ℚ) (hz : ∀ e ∈ ir, e = 0) (w : ℕ) (f : ℕ → ℚ)
    (t : ℕ) (s : FFTConvolution) (h : runState ir w f t = some s) :
    GoodState s ∧ (∀ e ∈ s.out.inner, e = 0) ∧ (∀ e ∈ s.ir_fft_cache, e = 0) := by
  unfold runState at h
  rcases Option.bind_eq_some.mp h with ⟨s0, hs0, hsteps⟩
  obtain ⟨hpos, hle, hrec⟩ := new?_inversion ir w s0 hs0
  have hgs0 : GoodState s0 := (goodstate_new ir w s0 hs0).1
  have ho0 : ∀ e ∈ s0.out.inner, e = 0 := by
    rw [hrec]
    exact replicate_zero _
  have hc0 : ∀ e ∈ s0.ir_fft_cache, e = 0 := by
    rw [hrec]
    exact append_zero _ _ hz (replicate_zero _)
  exact stepsFrom_zero_cache f s0 t s hgs0 ho0 hc0 hsteps

/-- Claim C7: for an engine constructed with an all-zero impulse response and
any window size, every compute call that returns a value returns 0, for
every input sample sequence. -/
theorem c7_zero_ir_output (ir : List ℚ) (hz : ∀ e ∈ ir, e = 0) (w : ℕ) (f : ℕ → ℚ)
    (t : ℕ) (y : ℚ) (h : outputAt ir w f t = some y) : y = 0 := by
  unfold outputAt at h
  rcases Option.bind_eq_some.mp h with ⟨s, hs, hcall⟩
  rcases Option.map_eq_some'.mp hcall with ⟨⟨y2, s2⟩, hcs, hy⟩
  obtain ⟨hgs, ho, hc⟩ := runState_zero_cache ir hz w f t s hs
  obtain ⟨hy2, _, _⟩ := compute_zero_cache s (f t) y2 s2 hgs ho hc hcs
  rw [← hy]
  exact hy2

/-- Witness for C7: the all-zero impulse response [0,0,0] with window size 2
and the constant-1 input produces output 0 at call 3. -/
theorem c7_zero_ir_output_witness : (0 : ℚ) = 0 :=
  c7_zero_ir_output [0, 0, 0] (by norm_num) 2 (fun _ => 1) 3 0
    (by norm_num [outputAt, runState, FFTConvolution.stepsFrom, FFTConvolution.new?,
      FFTConvolution.compute, FFTConvolution.padded_window_size, nextPow2, nextPow2Go,
      RingBuffer.new, RingBuffer.initFull, RingBuffer.reinit, RingBuffer.pushN,
      RingBuffer.push_back, RingBuffer.to_capacity_front, RingBuffer.evictFrontN,
      RingBuffer.pop_front, RingBuffer.buffer_back, RingBuffer.clear,
      cyclicConv, addInto, Finset.sum_range_succ, List.range_succ, List.cons_ne_nil])

theorem compute_zero_input (s : FFTConvolution) (y : ℚ) (s2 : FFTConvolution)
    (hgs : GoodState s) (ho : ∀ e ∈ s.out.inner, e = 0)
    (hxz : ∀ e ∈ s.x.inner, e = 0) (h : s.compute 0 = some (y, s2)) :
    y = 0 ∧ (∀ e ∈ s2.out.inner, e = 0) ∧ (∀ e ∈ s2.x.inner, e = 0) := by
  obtain ⟨hxc, hxl, hoc, hol, hcl, hirle, hpos⟩ := hgs
  obtain ⟨b, o', hinner, hcap, hy, hir, hws, hcache, hocap, hxcap, hbranch⟩ :=
    compute_inversion s 0 y s2 (by omega) (by omega) h
  have hz_o : ∀ e ∈ o', e = 0 := fun e he => ho e (by rw [hinner]; simp [he])
  have hz_tail : ∀ e ∈ o' ++ [(0 : ℚ)], e = 0 :=
    append_zero o' [0] hz_o (by simp)
  refine ⟨by rw [hy]; exact ho b (by rw [hinner]; simp), ?_, ?_⟩
  · rcases hbranch with ⟨hx2, ho2, hlt⟩ | ⟨chunk, hclen, hmem, hx2, ho2⟩
    · rw [ho2]
      exact hz_tail
    · rw [ho2]
      have hchunkz : ∀ e ∈ chunk, e = 0 := by
        intro e he
        rcases hmem e he with h1 | h1
        · exact hxz e h1
        · exact h1
      refine addInto_zero _ _ hz_tail (cyclicConv_zero_left _ _ _ ?_)
      exact append_zero _ _ hchunkz (replicate_zero _)
  · rcases hbranch with ⟨hx2, ho2, hlt⟩ | ⟨chunk, hclen, hmem, hx2, ho2⟩
    · rw [hx2]
      exact append_zero _ _ hxz (by simp)
    · rw [hx2]
      simp

theorem stepsFrom_zero_input (s : FFTConvolution) (t : ℕ) (s2 : FFTConvolution)
    (hgs : GoodState s) (ho : ∀ e ∈ s.out.inner, e = 0)
    (hxz : ∀ e ∈ s.x.inner, e = 0)
    (h : FFTConvolution.stepsFrom (fun _ => 0) s t = some s2) :
    GoodState s2 ∧ (∀ e ∈ s2.out.inner, e = 0) ∧ (∀ e ∈ s2.x.inner, e = 0) := by
  induction t generalizing s2 with
  | zero =>
    simp [FFTConvolution.stepsFrom] at h
    subst h
    exact ⟨hgs, ho, hxz⟩
  | succ t ih =>
    simp only [FFTConvolution.stepsFrom] at h
    rcases Option.bind_eq_some.mp h with ⟨u, hu, hcall⟩
    rcases Option.map_eq_some'.mp hcall with ⟨⟨y, u2⟩, hcu, hu2⟩
    obtain ⟨hgu, hou, hxu⟩ := ih u hu
    obtain ⟨hg2, _, _, _⟩ := goodstate_compute u 0 y u2 hgu hcu
    obtain ⟨_, ho2, hx2⟩ := compute_zero_input u y u2 hgu hou hxu hcu
    subst hu2
    exact ⟨hg2, ho2, hx2⟩

/-- Claim C8: after any sequence of compute and clear calls, clear() returns
the engine to the state of a freshly constructed instance with the same ir
and window size (input accumulator empty, output accumulator all zeros at
unchanged capacity), and feeding any number of zero samples to a fresh
instance yields only zero outputs, exactly as a fresh instance does. -/
theorem c8_clear_resets (ir : List ℚ) (w : ℕ) (ops : List FCOp) (s0 s : FFTConvolution)
    (h0 : FFTConvolution.new? ir w = some s0) (h : applyOps s0 ops = some s) :
    s.clear = s0 ∧ (∀ t y, outputFromAt s0 (fun _ => 0) t = some y → y = 0) := by
  obtain ⟨hpos, hle, hrec⟩ := new?_inversion ir w s0 h0
  have hgs0 : GoodState s0 := (goodstate_new ir w s0 h0).1
  obtain ⟨hgs, hir, hws, hcache⟩ := applyOps_invariant s0 s ops hgs0 h
  constructor
  · have hcap2 : s.out.capacity = FFTConvolution.padded_window_size ir.length w := by
      have h1 := hgs.2.2.1
      rw [hir, hws] at h1
      rw [h1, hrec]
    obtain ⟨hgc, hcir, hcws, hccache, hcx, hcout⟩ := goodstate_clear s hgs
    rw [show s.clear = (⟨s.clear.x, s.clear.out, s.clear.window_size, s.clear.ir,
      s.clear.ir_fft_cache⟩ : FFTConvolution) from rfl, hrec]
    congr 1
    · rw [hcx, hws, hrec]
    · rw [hcout, hcap2]
    · rw [hcws, hws, hrec]
    · rw [hcir, hir, hrec]
    · rw [hccache, hcache, hrec]
  · intro t y hy
    unfold outputFromAt at hy
    rcases Option.bind_eq_some.mp hy with ⟨u, hu, hcall⟩
    rcases Option.map_eq_some'.mp hcall with ⟨⟨y2, u2⟩, hcu, hy2⟩
    have ho0 : ∀ e ∈ s0.out.inner, e = 0 := by
      rw [hrec]
      exact replicate_zero _
    have hx0 : ∀ e ∈ s0.x.inner, e = 0 := by
      rw [hrec]
      simp
    obtain ⟨hgu, hou, hxu⟩ := stepsFrom_zero_input s0 t u hgs0 ho0 hx0 hu
    obtain ⟨hyz, _, _⟩ := compute_zero_input u y2 u2 hgu hou hxu hcu
    rw [← hy2]
    exact hyz

/-- Witness for C8 on the engine with ir [1] and window size 1 after one
compute call. -/
theorem c8_clear_resets_witness :
    ({ x := ⟨[], 1⟩, out := ⟨[1], 1⟩, window_size := 1, ir := [1],
       ir_fft_cache := [1] } : FFTConvolution).clear =
      { x := ⟨[], 1⟩, out := ⟨[0], 1⟩, window_size := 1, ir := [1], ir_fft_cache := [1] } ∧
    (∀ t y, outputFromAt
        { x := ⟨[], 1⟩, out := ⟨[0], 1⟩, window_size := 1, ir := [1], ir_fft_cache := [1] }
        (fun _ => 0) t = some y → y = 0) :=
  c8_clear_resets [1] 1 [FCOp.comp 1]
    { x := ⟨[], 1⟩, out := ⟨[0], 1⟩, window_size := 1, ir := [1], ir_fft_cache := [1] }
    { x := ⟨[], 1⟩, out := ⟨[1], 1⟩, window_size := 1, ir := [1], ir_fft_cache := [1] }
    (by norm_num [FFTConvolution.new?, FFTConvolution.padded_window_size, nextPow2,
      nextPow2Go, RingBuffer.new, RingBuffer.initFull, RingBuffer.reinit, RingBuffer.pushN,
      RingBuffer.push_back, RingBuffer.to_capacity_front, RingBuffer.evictFrontN,
      RingBuffer.pop_front])
    (by norm_num [applyOps, applyOp, FFTConvolution.compute, FFTConvolution.padded_window_size,
      nextPow2, nextPow2Go, RingBuffer.new, RingBuffer.push_back, RingBuffer.to_capacity_front,
      RingBuffer.evictFrontN, RingBuffer.pop_front, RingBuffer.buffer_back, RingBuffer.clear,
      cyclicConv, addInto, Finset.sum_range_succ, List.range_succ, List.cons_ne_nil])

/-! Convolution mathematics: tap lookup, block decomposition, cyclic versus
linear convolution under zero padding. -/

theorem irZ_neg (ir : List ℚ) (z : ℤ) (h : z < 0) : irZ ir z = 0 := by
  unfold irZ
  rw [if_neg (by omega)]

theorem irZ_big (ir : List ℚ) (z : ℤ) (h : (ir.length : ℤ) ≤ z) : irZ ir z = 0 := by
  unfold irZ
  rw [if_pos (by omega)]
  exact getD_zero_of_ge ir z.toNat (by omega)

theorem irZ_ofNat (ir : List ℚ) (n : ℕ) : irZ ir (n : ℤ) = ir.getD n 0 := by
  unfold irZ
  rw [if_pos (by omega)]
  norm_num

theorem blockConv_neg (f : ℕ → ℚ) (ir : List ℚ) (w k : ℕ) (d : ℤ) (h : d < 0) :
    blockConv f ir w k d = 0 := by
  refine Finset.sum_eq_zero fun j hj => ?_
  rw [irZ_neg ir _ (by omega)]
  exact mul_zero _

theorem blockConv_big (f : ℕ → ℚ) (ir : List ℚ) (w k : ℕ) (d : ℤ)
    (h : (w : ℤ) + ir.length - 1 ≤ d) : blockConv f ir w k d = 0 := by
  refine Finset.sum_eq_zero fun j hj => ?_
  simp only [Finset.mem_range] at hj
  rw [irZ_big ir _ (by omega)]
  exact mul_zero _

theorem accS_succ (f : ℕ → ℚ) (ir : List ℚ) (w b u : ℕ) :
    accS f ir w (b + 1) u =
      accS f ir w b u + blockConv f ir w b ((u : ℤ) - b * w - w) := by
  unfold accS
  rw [Finset.sum_range_succ]

theorem accS_vanish (f : ℕ → ℚ) (ir : List ℚ) (w b u : ℕ)
    (h : ∀ k < b, k * w + w + (w + ir.length) ≤ u + 1) :
    accS f ir w b u = 0 := by
  refine Finset.sum_eq_zero fun k hk => ?_
  simp only [Finset.mem_range] at hk
  have h1 := h k hk
  refine blockConv_big f ir w k _ ?_
  have hc : ((k * w : ℕ) : ℤ) = (k : ℤ) * w := by push_cast; ring
  omega

theorem sum_range_mul (g : ℕ → ℚ) (b w : ℕ) :
    ∑ j ∈ Finset.range (b * w), g j =
      ∑ k ∈ Finset.range b, ∑ j ∈ Finset.range w, g (k * w + j) := by
  induction b with
  | zero => simp
  | succ b ih =>
    rw [Nat.succ_mul, Finset.sum_range_add, ih, Finset.sum_range_succ]

theorem convAt_eq_blocks (f : ℕ → ℚ) (ir : List ℚ) (w : ℕ) (hw : 1 ≤ w) (m : ℕ) :
    convAt f ir m =
      ∑ k ∈ Finset.range (m / w + 1), blockConv f ir w k ((m : ℤ) - k * w) := by
  have hdm := Nat.div_add_mod' m w
  have hmod : m % w < w := Nat.mod_lt m (by omega)
  have hB : m + 1 ≤ (m / w + 1) * w := by
    rw [Nat.succ_mul]
    omega
  unfold convAt
  calc (∑ j ∈ Finset.range (m + 1), f j * irZ ir ((m : ℤ) - j))
      = ∑ j ∈ Finset.range ((m / w + 1) * w), f j * irZ ir ((m : ℤ) - j) := by
        refine Finset.sum_subset (Finset.range_subset.mpr hB) fun j hj hj2 => ?_
        simp only [Finset.mem_range] at hj hj2
        rw [irZ_neg ir _ (by omega)]
        exact mul_zero _
    _ = ∑ k ∈ Finset.range (m / w + 1), ∑ j ∈ Finset.range w,
          f (k * w + j) * irZ ir ((m : ℤ) - (k * w + j)) :=
        sum_range_mul (fun j => f j * irZ ir ((m : ℤ) - j)) (m / w + 1) w
    _ = ∑ k ∈ Finset.range (m / w + 1), blockConv f ir w k ((m : ℤ) - k * w) := by
        refine Finset.sum_congr rfl fun k hk => ?_
        unfold blockConv
        refine Finset.sum_congr rfl fun j hj => ?_
        congr 1
        ring_nf

theorem cyclicConv_padded (chunk ir : List ℚ) (n : ℕ)
    (hw : chunk.length ≤ n) (hlin : chunk.length + ir.length ≤ n + 1)
    (i : ℕ) (hi : i < n) :
    (cyclicConv n (chunk ++ List.replicate (n - chunk.length) 0)
        (ir ++ List.replicate (n - ir.length) 0)).getD i 0 =
      ∑ j ∈ Finset.range chunk.length, chunk.getD j 0 * irZ ir ((i : ℤ) - j) := by
  rw [cyclicConv_getD n _ _ i hi]
  calc (∑ j ∈ Finset.range n,
          (chunk ++ List.replicate (n - chunk.length) 0).getD j 0 *
            (ir ++ List.replicate (n - ir.length) 0).getD ((i + n - j) % n) 0)
      = ∑ j ∈ Finset.range chunk.length,
          (chunk ++ List.replicate (n - chunk.length) 0).getD j 0 *
            (ir ++ List.replicate (n - ir.length) 0).getD ((i + n - j) % n) 0 := by
        refine (Finset.sum_subset (Finset.range_subset.mpr hw) fun j hj hj2 => ?_).symm
        simp only [Finset.mem_range] at hj hj2
        rw [getD_pad, getD_zero_of_ge chunk _ (by omega)]
        exact zero_mul _
    _ = ∑ j ∈ Finset.range chunk.length, chunk.getD j 0 * irZ ir ((i : ℤ) - j) := by
        refine Finset.sum_congr rfl fun j hj => ?_
        simp only [Finset.mem_range] at hj
        rw [getD_pad]
        congr 1
        by_cases hji : j ≤ i
        · have hidx : (i + n - j) % n = i - j := by
            rw [show i + n - j = (i - j) + n from by omega, Nat.add_mod_right]
            exact Nat.mod_eq_of_lt (by omega)
          rw [hidx, getD_pad]
          rw [show ((i : ℤ) - j) = ((i - j : ℕ) : ℤ) from by omega]
          rw [irZ_ofNat]
        · push_neg at hji
          have hidx : (i + n - j) % n = i + n - j :=
            Nat.mod_eq_of_lt (by omega)
          rw [hidx, getD_pad]
          rw [getD_zero_of_ge ir _ (by omega)]
          rw [irZ_neg ir _ (by omega)]

theorem convAt_identity (f : ℕ → ℚ) (m : ℕ) : convAt f [1] m = f m := by
  unfold convAt
  rw [Finset.sum_eq_single m]
  · rw [show ((m : ℤ) - m) = ((0 : ℕ) : ℤ) from by omega, irZ_ofNat]
    norm_num
  · intro j hj hjm
    simp only [Finset.mem_range] at hj
    have hlt : j < m := by omega
    rw [show ((m : ℤ) - j) = ((m - j : ℕ) : ℤ) from by omega, irZ_ofNat]
    rw [getD_zero_of_ge [1] _ (by simp; omega)]
    exact mul_zero _
  · intro hm
    simp at hm

/-! The streaming invariant: after t calls the output accumulator holds the
overlap-add partial sums of all completed blocks. -/

theorem engineInv_new (ir : List ℚ) (w : ℕ) (f : ℕ → ℚ) (hir : ir ≠ []) (hw : 1 ≤ w) :
    ∃ s0, FFTConvolution.new? ir w = some s0 ∧ EngineInv ir w f 0 s0 := by
  have hL : 1 ≤ ir.length := List.length_pos.mpr hir
  have hle : ir.length ≤ FFTConvolution.padded_window_size ir.length w := pws_ge_ir _ _ hw
  refine ⟨{ x := ⟨[], w⟩
            out := ⟨List.replicate (FFTConvolution.padded_window_size ir.length w) 0,
              FFTConvolution.padded_window_size ir.length w⟩
            window_size := w
            ir := ir
            ir_fft_cache :=
              ir ++ List.replicate
                (FFTConvolution.padded_window_size ir.length w - ir.length) 0 }, ?_, ?_⟩
  · unfold FFTConvolution.new?
    rw [if_neg (by omega), if_pos hle, initFull_new]
    rfl
  · refine ⟨rfl, rfl, rfl, by simp, rfl, by simp, rfl, ?_⟩
    intro i hi
    rw [getD_zero_of_all _ (replicate_zero _) i]
    simp [accS]

theorem engineInv_step (ir : List ℚ) (w : ℕ) (f : ℕ → ℚ) (t : ℕ) (s : FFTConvolution)
    (hir : ir ≠ []) (hw : 1 ≤ w) (hinv : EngineInv ir w f t s) :
    ∃ s2, s.compute (f t) = some (accS f ir w (t / w) t, s2) ∧
      EngineInv ir w f (t + 1) s2 := by
  obtain ⟨hsir, hsw, hxc, hxinner, hoc, holen, hcache, hout⟩ := hinv
  set N := FFTConvolution.padded_window_size ir.length w with hN
  have hL : 1 ≤ ir.length := List.length_pos.mpr hir
  have hNpos : 0 < N := pws_pos _ _
  have hNge : ir.length + w - 1 ≤ N := pws_ge _ _
  have hNgeW : w ≤ N := pws_ge_w _ _ hL
  have hNgeL : ir.length ≤ N := pws_ge_ir _ _ hw
  cases hoinner : s.out.inner with
  | nil =>
    rw [hoinner] at holen
    simp at holen
    omega
  | cons b0 o' =>
    have hcap : s.out.capacity ≠ 0 := by omega
    have hpop : s.out.pop_front = (some b0, ⟨o', s.out.capacity⟩) := by
      rw [show s.out = ⟨b0 :: o', s.out.capacity⟩ from by rw [← hoinner]]
      exact pop_front_cons _ hcap b0 o'
    have holen2 : o'.length + 1 = N := by
      rw [hoinner] at holen
      simpa using holen
    have hb0 : b0 = accS f ir w (t / w) t := by
      have h5 := hout 0 hNpos
      rw [hoinner] at h5
      simpa using h5
    rw [hb0] at hpop
    have hpush : (⟨o', s.out.capacity⟩ : RingBuffer ℚ).push_back 0 =
        ⟨o' ++ [0], s.out.capacity⟩ :=
      push_back_of_lt _ _ hcap (by simp; omega)
    have hr : t % w < w := Nat.mod_lt t (by omega)
    have hdm : t / w * w + t % w = t := Nat.div_add_mod' t w
    have hxlen : s.x.inner.length = t % w := by
      rw [hxinner]
      simp
    have hvanish : accS f ir w (t / w) (t + N) = 0 := by
      refine accS_vanish f ir w _ _ fun k hk => ?_
      have h3 : (k + 1) * w ≤ t / w * w := Nat.mul_le_mul_right w (by omega)
      rw [Nat.succ_mul] at h3
      have h4 : t / w * w ≤ t := Nat.div_mul_le_self t w
      omega
    have houtTail : ∀ i < N, (o' ++ [(0 : ℚ)]).getD i 0 =
        accS f ir w (t / w) (t + 1 + i) := by
      intro i hi
      by_cases hiN : i < N - 1
      · have hgetd : (o' ++ [(0 : ℚ)]).getD i 0 = o'.getD i 0 :=
          getD_append_lt o' [0] i 0 (by omega)
        have h5 := hout (i + 1) (by omega)
        rw [hoinner] at h5
        simp only [List.getD_cons_succ] at h5
        rw [hgetd, h5]
        congr 1
        omega
      · have hzero : (o' ++ [(0 : ℚ)]).getD i 0 = 0 := by
          rw [show [(0 : ℚ)] = List.replicate 1 0 from rfl, getD_pad]
          exact getD_zero_of_ge o' i (by omega)
        rw [hzero, show t + 1 + i = t + N from by omega]
        exact hvanish.symm
    by_cases hfull : t % w + 1 = w
    · -- a block completes during this call
      have hbb : s.x.buffer_back (f t) =
          (some (s.x.inner ++ [f t]), ⟨[], s.x.capacity⟩) :=
        buffer_back_full s.x (f t) (by omega) (by omega)
      have hchunklen : (s.x.inner ++ [f t]).length = w := by
        simp [hxlen]
        omega
      have hfteq : f t = f (t / w * w + t % w) := by
        congr 1
        omega
      have hrange : List.range w = List.range (t % w) ++ [t % w] := by
        conv_lhs => rw [show w = t % w + 1 from by omega]
        exact List.range_succ (t % w)
      have hchunk : s.x.inner ++ [f t] =
          (List.range w).map (fun j => f (t / w * w + j)) := by
        rw [hrange, List.map_append, hxinner]
        simp only [List.map_cons, List.map_nil]
        rw [← hfteq]
      have ht1 : t + 1 = (t / w + 1) * w := by
        rw [Nat.succ_mul]
        omega
      have hdiv1 : (t + 1) / w = t / w + 1 := by
        rw [ht1]
        exact Nat.mul_div_left _ (by omega)
      have hmod1 : (t + 1) % w = 0 := by
        rw [ht1]
        exact Nat.mul_mod_left _ _
      have hg0 : ¬ (s.ir.length + (s.x.inner ++ [f t]).length = 0) := by
        rw [hsir, hchunklen]
        omega
      have hcachelen : s.ir_fft_cache.length = N := by
        rw [hcache]
        simp
        omega
      have hg1 : (s.x.inner ++ [f t]).length ≤
          FFTConvolution.padded_window_size s.ir.length (s.x.inner ++ [f t]).length ∧
          FFTConvolution.padded_window_size s.ir.length (s.x.inner ++ [f t]).length =
            s.ir_fft_cache.length := by
        rw [hsir, hchunklen, hcachelen]
        exact ⟨hNgeW, rfl⟩
      refine ⟨{ s with
          x := ⟨[], s.x.capacity⟩
          out := ⟨addInto (o' ++ [0])
            (cyclicConv N ((s.x.inner ++ [f t]) ++ List.replicate (N - w) 0)
              s.ir_fft_cache), s.out.capacity⟩ }, ?_, ?_⟩
      · unfold FFTConvolution.compute
        rw [hpop]
        simp only [hpush]
        rw [hbb]
        dsimp only
        rw [if_neg hg0, if_pos hg1]
        rw [hsir, hchunklen]
      · have hbufval : ∀ i < N,
            (cyclicConv N ((s.x.inner ++ [f t]) ++ List.replicate (N - w) 0)
              s.ir_fft_cache).getD i 0 = blockConv f ir w (t / w) (i : ℤ) := by
          intro i hi
          have hcp := cyclicConv_padded (s.x.inner ++ [f t]) ir N
            (by omega) (by omega) i hi
          rw [hchunklen] at hcp
          rw [hcache]
          rw [hcp]
          unfold blockConv
          refine Finset.sum_congr rfl fun j hj => ?_
          simp only [Finset.mem_range] at hj
          congr 1
          rw [hchunk, getD_map_range _ w j hj]
        refine ⟨hsir, hsw, hxc, ?_, hoc, ?_, hcache, ?_⟩
        · simp [hmod1]
        · show (addInto (o' ++ [0]) _).length = N
          rw [addInto_length]
          simp
          omega
        · intro i hi
          show (addInto (o' ++ [0]) _).getD i 0 = _
          rw [addInto_getD _ _ i (by simp; omega) (by rw [cyclicConv_length]; omega)]
          rw [houtTail i hi, hbufval i hi, hdiv1, accS_succ]
          congr 1
          have hc : ((t / w * w : ℕ) : ℤ) = ((t / w : ℕ) : ℤ) * ((w : ℕ) : ℤ) := by
            push_cast
            ring
          rw [show (((t + 1 + i : ℕ)) : ℤ) - (t / w : ℕ) * (w : ℕ) - (w : ℕ) = (i : ℤ)
            from by omega]
    · -- no block boundary this call
      have hbb : s.x.buffer_back (f t) =
          (none, ⟨s.x.inner ++ [f t], s.x.capacity⟩) :=
        buffer_back_lt s.x (f t) (by omega) (by omega)
      have h2 : t + 1 = (t % w + 1) + t / w * w := by omega
      have hmod1 : (t + 1) % w = t % w + 1 := by
        rw [h2, Nat.add_mul_mod_self_right]
        exact Nat.mod_eq_of_lt (by omega)
      have hdiv1 : (t + 1) / w = t / w := by
        rw [h2, Nat.add_mul_div_right _ _ (by omega : 0 < w),
          Nat.div_eq_of_lt (by omega)]
        omega
      refine ⟨{ s with
          x := ⟨s.x.inner ++ [f t], s.x.capacity⟩
          out := ⟨o' ++ [0], s.out.capacity⟩ }, ?_, ?_⟩
      · unfold FFTConvolution.compute
        rw [hpop]
        simp only [hpush]
        rw [hbb]
      have hfteq : f t = f (t / w * w + t % w) := by
        congr 1
        omega
      · refine ⟨hsir, hsw, hxc, ?_, hoc, ?_, hcache, ?_⟩
        · show s.x.inner ++ [f t] = _
          rw [hmod1, hdiv1, List.range_succ, List.map_append, hxinner]
          simp only [List.map_cons, List.map_nil]
          rw [← hfteq]
        · show (o' ++ [(0 : ℚ)]).length = N
          simp
          omega
        · intro i hi
          show (o' ++ [(0 : ℚ)]).getD i 0 = _
          rw [houtTail i hi, hdiv1]

theorem runState_succ (ir : List ℚ) (w : ℕ) (f : ℕ → ℚ) (t : ℕ) :
    runState ir w f (t + 1) =
      (runState ir w f t).bind fun s => (s.compute (f t)).map Prod.snd := by
  unfold runState
  cases FFTConvolution.new? ir w <;> simp [FFTConvolution.stepsFrom]

theorem engineInv_run (ir : List ℚ) (w : ℕ) (f : ℕ → ℚ) (hir : ir ≠ []) (hw : 1 ≤ w)
    (t : ℕ) : ∃ s, runState ir w f t = some s ∧ EngineInv ir w f t s := by
  induction t with
  | zero =>
    obtain ⟨s0, hs0, hinv⟩ := engineInv_new ir w f hir hw
    refine ⟨s0, ?_, hinv⟩
    unfold runState
    rw [hs0]
    rfl
  | succ t ih =>
    obtain ⟨s, hs, hinv⟩ := ih
    obtain ⟨s2, hc, hinv2⟩ := engineInv_step ir w f t s hir hw hinv
    refine ⟨s2, ?_, hinv2⟩
    rw [runState_succ, hs]
    simp [hc]

theorem outputAt_spec (ir : List ℚ) (w : ℕ) (f : ℕ → ℚ) (hir : ir ≠ []) (hw : 1 ≤ w)
    (t : ℕ) : outputAt ir w f t = some (accS f ir w (t / w) t) := by
  obtain ⟨s, hs, hinv⟩ := engineInv_run ir w f hir hw t
  obtain ⟨s2, hc, _⟩ := engineInv_step ir w f t s hir hw hinv
  unfold outputAt
  rw [hs]
  simp [hc]

theorem accS_eq_convAt (f : ℕ → ℚ) (ir : List ℚ) (w : ℕ) (hw : 1 ≤ w) (t : ℕ) :
    accS f ir w (t / w) t = if t < w then 0 else convAt f ir (t - w) := by
  by_cases ht : t < w
  · rw [if_pos ht, Nat.div_eq_of_lt ht]
    simp [accS]
  · rw [if_neg ht]
    push_neg at ht
    have hm : t = (t - w) + w := by omega
    have hdiv : t / w = (t - w) / w + 1 := by
      conv_lhs => rw [hm]
      exact Nat.add_div_right _ (by omega)
    rw [convAt_eq_blocks f ir w hw (t - w), hdiv]
    unfold accS
    refine Finset.sum_congr rfl fun k hk => ?_
    congr 1
    omega

/-- Claim C1 (amended): for every nonempty impulse response vector ir and
every window_size >= 1, feeding an input stream sample by sample through
compute produces, after the fixed latency of window_size samples, exactly
the direct (textbook) time-domain linear convolution of the input with ir
(exact equality in the rational model, standing for floating tolerance);
this holds uniformly, in particular both when ir is longer than window_size
(multi-block overlap-add) and when ir is shorter.  The original claim also
covered the empty impulse response, on which the code panics once the first
block completes whenever window_size >= 2; see the counterexample. -/
theorem c1_matches_direct_convolution (ir : List ℚ) (hir : ir ≠ []) (w : ℕ)
    (hw : 1 ≤ w) (f : ℕ → ℚ) (t : ℕ) :
    outputAt ir w f t = some (if t < w then 0 else convAt f ir (t - w)) := by
  rw [outputAt_spec ir w f hir hw t, accS_eq_convAt f ir w hw t]

/-- Witness for C1: window size 1 with the two-tap impulse response [2, 3]
(longer than the window, forcing multi-block overlap-add). -/
theorem c1_matches_direct_convolution_witness :
    outputAt [2, 3] 1 (fun _ => 1) 1 =
      some (if 1 < 1 then 0 else convAt (fun _ => 1) [2, 3] (1 - 1)) :=
  c1_matches_direct_convolution [2, 3] (by simp) 1 (by omega) (fun _ => 1) 1

/-- Counterexample for C1 as stated: with the empty impulse response and
window size 2, construction succeeds, but the call that completes the first
block panics at the take(padded_window_size - window_size) underflow and
yields no output at all, while direct convolution with an empty impulse
response is total (identically zero). -/
theorem c1_matches_direct_convolution_counterexample :
    (FFTConvolution.new? [] 2).isSome = true ∧
      outputAt [] 2 (fun _ => 1) 1 = none := by
  constructor
  · norm_num [FFTConvolution.new?, FFTConvolution.padded_window_size, nextPow2, nextPow2Go]
  · norm_num [outputAt, runState, FFTConvolution.stepsFrom, FFTConvolution.new?,
      FFTConvolution.compute, FFTConvolution.padded_window_size, nextPow2, nextPow2Go,
      RingBuffer.new, RingBuffer.initFull, RingBuffer.reinit, RingBuffer.pushN,
      RingBuffer.push_back, RingBuffer.to_capacity_front, RingBuffer.evictFrontN,
      RingBuffer.pop_front, RingBuffer.buffer_back, RingBuffer.clear,
      cyclicConv, addInto, Finset.sum_range_succ, List.range_succ, List.cons_ne_nil]

/-- Claim C4 (amended): with the identity impulse response [1.0] and window
size W >= 1, the first W outputs are exactly zero (the initial silence lasts
window_size samples, not padded_window_size samples; see the
counterexample), and from call W onwards compute reproduces the input
stream exactly, delayed by the fixed, deterministic amount of window_size
samples. -/
theorem c4_identity_latency (w : ℕ) (hw : 1 ≤ w) (f : ℕ → ℚ) (t : ℕ) :
    outputAt [1] w f t = some (if t < w then 0 else f (t - w)) := by
  rw [outputAt_spec [1] w f (by simp) hw t, accS_eq_convAt f [1] w hw t]
  by_cases ht : t < w <;> simp [ht, convAt_identity]

/-- Witness for C4 at window size 2, call 3: the input sample from call 1 is
reproduced. -/
theorem c4_identity_latency_witness :
    outputAt [1] 2 (fun k => (k : ℚ)) 3 = some (if 3 < 2 then 0 else ((3 - 2 : ℕ) : ℚ)) :=
  c4_identity_latency 2 (by omega) (fun k => (k : ℚ)) 3

/-- Counterexample for C4: with ir [1] and window size 3 the padded window
size is 4, yet call 3 already outputs the nonzero sample 1, so the initial
silence does not last padded_window_size samples (only window_size). -/
theorem c4_identity_latency_counterexample :
    3 < FFTConvolution.padded_window_size [(1 : ℚ)].length 3 ∧
      outputAt [1] 3 (fun _ => 1) 3 = some 1 ∧ (1 : ℚ) ≠ 0 := by
  refine ⟨by norm_num [FFTConvolution.padded_window_size, nextPow2, nextPow2Go], ?_, by norm_num⟩
  norm_num [outputAt, runState, FFTConvolution.stepsFrom, FFTConvolution.new?,
    FFTConvolution.compute, FFTConvolution.padded_window_size, nextPow2, nextPow2Go,
    RingBuffer.new, RingBuffer.initFull, RingBuffer.reinit, RingBuffer.pushN,
    RingBuffer.push_back, RingBuffer.to_capacity_front, RingBuffer.evictFrontN,
    RingBuffer.pop_front, RingBuffer.buffer_back, RingBuffer.clear,
    cyclicConv, addInto, Finset.sum_range_succ, List.range_succ, List.cons_ne_nil]
